import Mathlib

/-!
Verification development for the flashcrawl crawling service.

The pipeline under study lives in `src/utils/markdown.js` (Markdown
normalisation and link sanitisation), `src/services/htmlHandler.js` and
`src/services/pdfHandler.js` (hashing and result assembly),
`src/services/browserService.js` / `src/services/crawlService.js` (crawl
orchestration, URL validation, verification polling, redirect chains) and
`server.js` (redirect-limit interception, status reporting).

JavaScript strings are embedded as `List Char`; each regular-expression
replacement used by the source is embedded as a deterministic left-to-right
scanner with the same matching semantics.  Platform libraries (the WHATWG
`URL` class, `crypto` SHA-256, Turndown, pdf2md, Playwright/Puppeteer) are
either modelled shallowly (URL) or abstracted as function parameters; every
such spot is documented at the definition that does it.
-/

namespace Flashcrawl

/-- Whitespace characters in the sense of JavaScript's `\s`, `trim`,
`trimEnd` (ASCII fragment: space, tab, LF, VT, FF, CR; the Unicode space
characters never arise in the strings this development evaluates). -/
def wsChar (c : Char) : Bool :=
  c = ' ' || c = '\t' || c = '\n' || c = '\r' || c = Char.ofNat 11 || c = Char.ofNat 12

/-- Whitespace other than the newline. -/
def wsNoNl (c : Char) : Bool :=
  wsChar c && c ≠ '\n'

/-- Embedding of JavaScript `String.prototype.trimEnd`. -/
def trimEndL (l : List Char) : List Char :=
  (l.reverse.dropWhile wsChar).reverse

/-- Embedding of JavaScript `String.prototype.trim`. -/
def jsTrimL (l : List Char) : List Char :=
  trimEndL (l.dropWhile wsChar)

/-- Embedding of JavaScript `String.prototype.trim` on `String`. -/
def jsTrimStr (s : String) : String :=
  ⟨jsTrimL s.data⟩

/-- Split a character list at `'\n'`, like `String.prototype.split('\n')`
(so a trailing newline yields a final empty piece). -/
def splitNl : List Char → List (List Char)
  | [] => [[]]
  | c :: cs =>
    if c = '\n' then [] :: splitNl cs
    else
      match splitNl cs with
      | [] => [[c]]
      | p :: ps => (c :: p) :: ps

/-- Join lines with `'\n'`, like `Array.prototype.join('\n')`. -/
def joinNl : List (List Char) → List Char
  | [] => []
  | [l] => l
  | l :: ls => l ++ '\n' :: joinNl ls

/-!
### Generic replacement scanner

Each `String.replace(regex, …)` call in `cleanMarkdown` is embedded as a
left-to-right scan: at every position the matcher is offered the remaining
input (plus a flag telling whether the position starts a line, for the
`m`-anchored patterns); on a match it returns the replacement text, the
rest of the input after the match, and the line-start status of that rest
position.  This reproduces the leftmost scanning of `RegExp.replace` with
the `g` flag.  The scanner carries fuel (every matcher consumes at least
one character, so `length` fuel suffices) to stay structurally recursive.
-/

/-- Result of offering a matcher the remaining input: replacement text,
input after the match, and whether the position after the match is a line
start. -/
abbrev MatchRes := List Char × List Char × Bool

/-- A matcher: line-start flag and remaining input to option match. -/
abbrev Matcher := Bool → List Char → Option MatchRes

/-- Generic replacement scan (fuel, line-start flag, input).  `nf`
computes the line-start status after copying one character. -/
def scanRep (m : Matcher) (nf : Char → Bool) : Nat → Bool → List Char → List Char
  | 0, _, l => l
  | _ + 1, _, [] => []
  | fuel + 1, st, c :: cs =>
    match m st (c :: cs) with
    | some (repl, rest, st') => repl ++ scanRep m nf fuel st' rest
    | none => c :: scanRep m nf fuel (nf c) cs

/-- Run a replacement scan over a whole string (position 0 is a line
start). -/
def runScan (m : Matcher) (nf : Char → Bool) (l : List Char) : List Char :=
  scanRep m nf l.length true l

/-- Line-start update used by every scanner: the next position starts a
line exactly after a newline. -/
def nlFlag (c : Char) : Bool := c = '\n'

/-- Shared embedding of a trailing `\s*$` (with the `m` flag, also used
for `\s*(?=\n|$)`): starting from `l`, the greedy whitespace run either
reaches the end of the string (everything is consumed) or must stop right
before a newline inside the run, longest first.  Returns
`(consumed, rest)` on success. -/
def wsToEol (l : List Char) : Option (List Char × List Char) :=
  let w := l.takeWhile wsChar
  let rest := l.drop w.length
  if rest.isEmpty then some (w, [])
  else
    match w.reverse.dropWhile (fun c => c ≠ '\n') with
    | [] => none
    | _ :: tl => some (tl.reverse, '\n' :: (w.reverse.takeWhile (fun c => c ≠ '\n')).reverse ++ rest)

/-- Line-start flag after consuming `consumed` whose own flag would
otherwise be `dflt` (true exactly when the consumed text ends with a
newline). -/
def endsNlFlag (consumed : List Char) : Bool :=
  match consumed.getLast? with
  | some c => c = '\n'
  | none => false

/-!
### The eleven replacement passes of `cleanMarkdown`
(`src/utils/markdown.js`, lines 179–190)
-/

/-- Pass `replace(/\r/g, '')`. -/
def stripCR (l : List Char) : List Char :=
  l.filter (fun c => c ≠ '\r')

/-- Matcher for `replace(/\t+/g, ' ')`. -/
def mTabs : Matcher := fun _ l =>
  match l with
  | '\t' :: _ =>
    let run := l.takeWhile (fun c => c = '\t')
    some ([' '], l.drop run.length, false)
  | _ => none

/-- Matcher for `replace(/[ \t]+\n/g, '\n')`. -/
def mWsNl : Matcher := fun _ l =>
  let sp := fun c => c = ' ' || c = '\t'
  match l with
  | c :: _ =>
    if sp c then
      let run := l.takeWhile sp
      match l.drop run.length with
      | '\n' :: rest => some (['\n'], rest, true)
      | _ => none
    else none
  | _ => none

/-- Matcher for `replace(/^-{5,}\s*$/gm, '---')`. -/
def mHr : Matcher := fun st l =>
  if st then
    let hs := l.takeWhile (fun c => c = '-')
    if hs.length ≥ 5 then
      match wsToEol (l.drop hs.length) with
      | some (consumed, rest) => some (['-', '-', '-'], rest, endsNlFlag consumed)
      | none => none
    else none
  else none

/-- Matcher for `replace(/^\s*\d{1,3}\s*$/gm, '')` (page-number artifact
lines). -/
def mNum : Matcher := fun st l =>
  if st then
    let w1 := l.takeWhile wsChar
    let afterW := l.drop w1.length
    let ds := afterW.takeWhile Char.isDigit
    if 1 ≤ ds.length ∧ ds.length ≤ 3 then
      match wsToEol (afterW.drop ds.length) with
      | some (consumed, rest) =>
        some ([], rest, endsNlFlag (w1 ++ ds ++ consumed))
      | none => none
    else none
  else none

/-- Matcher for `replace(/(?:^|\n)---\n+Post\s*(?=\n|$)/g, '\n')` (no `m`
flag: `^` is the start of the whole string; the lookahead consumes
nothing). -/
def mPost : Matcher := fun st l =>
  let body : List Char → Option (List Char × List Char) := fun r =>
    match r with
    | '-' :: '-' :: '-' :: r1 =>
      let nls := r1.takeWhile (fun c => c = '\n')
      if nls.length ≥ 1 then
        match r1.drop nls.length with
        | 'P' :: 'o' :: 's' :: 't' :: r2 => wsToEol r2
        | _ => none
      else none
    | _ => none
  if st then
    match body l with
    | some (_, rest) => some (['\n'], rest, false)
    | none =>
      match l with
      | '\n' :: r =>
        match body r with
        | some (_, rest) => some (['\n'], rest, false)
        | none => none
      | _ => none
  else
    match l with
    | '\n' :: r =>
      match body r with
      | some (_, rest) => some (['\n'], rest, false)
      | none => none
    | _ => none

/-- Case-insensitive literal match helper (pattern given lowercase). -/
def ciStarts : List Char → List Char → Option (List Char)
  | [], l => some l
  | _ :: _, [] => none
  | p :: ps, c :: cs => if p = c.toLower then ciStarts ps cs else none

/-- Matcher for `replace(/\(#(?:comments?|respond)\)/gi, ')')`. -/
def mAnchor : Matcher := fun _ l =>
  match l with
  | '(' :: '#' :: r =>
    match ciStarts ['c', 'o', 'm', 'm', 'e', 'n', 't'] r with
    | some r1 =>
      match r1 with
      | 's' :: ')' :: rest => some ([')'], rest, false)
      | ')' :: rest => some ([')'], rest, false)
      | _ => none
    | none =>
      match ciStarts ['r', 'e', 's', 'p', 'o', 'n', 'd'] r with
      | some (')' :: rest) => some ([')'], rest, false)
      | _ => none
  | _ => none

/-- Matcher for the pass replacing every run of 20 or more hyphens
(regex `-{20,}`, global) with the literal three-character string
`'â€”'` found in the source. -/
def mDash : Matcher := fun _ l =>
  match l with
  | '-' :: _ =>
    let run := l.takeWhile (fun c => c = '-')
    if run.length ≥ 20 then some (['â', '€', '”'], l.drop run.length, false)
    else none
  | _ => none

/-- Matcher for `replace(/^(?:#{1,6})\s*$/gm, '')` (empty heading
lines). -/
def mHash : Matcher := fun st l =>
  if st then
    let hs := l.takeWhile (fun c => c = '#')
    if 1 ≤ hs.length ∧ hs.length ≤ 6 then
      match wsToEol (l.drop hs.length) with
      | some (consumed, rest) => some ([], rest, endsNlFlag (hs ++ consumed))
      | none => none
    else none
  else none

/-- Matcher for `replace(/^\s{3,}([-*+] )/gm, '$1')` (de-indent bullet
items). -/
def mBullet : Matcher := fun st l =>
  if st then
    let w := l.takeWhile wsChar
    if w.length ≥ 3 then
      match l.drop w.length with
      | b :: ' ' :: rest =>
        if b = '-' || b = '*' || b = '+' then some ([b, ' '], rest, false)
        else none
      | _ => none
    else none
  else none

/-- Matcher for `replace(/\n{3,}/g, '\n\n')`. -/
def mNls : Matcher := fun _ l =>
  match l with
  | '\n' :: _ =>
    let run := l.takeWhile (fun c => c = '\n')
    if run.length ≥ 3 then some (['\n', '\n'], l.drop run.length, true)
    else none
  | _ => none

/-- Matcher for `replace(/[ \t]+$/gm, '')` (trailing blanks; `$` matches
before a newline or at the end). -/
def mTrail : Matcher := fun _ l =>
  let sp := fun c => c = ' ' || c = '\t'
  match l with
  | c :: _ =>
    if sp c then
      let run := l.takeWhile sp
      match l.drop run.length with
      | [] => some ([], [], false)
      | '\n' :: rest => some ([], '\n' :: rest, false)
      | _ => none
    else none
  | _ => none

/-- The composed replacement passes of `cleanMarkdown`, in source order
(`markdown.js` lines 179–190). -/
def cleanPasses (l : List Char) : List Char :=
  let o1 := runScan mWsNl nlFlag (runScan mTabs nlFlag (stripCR l))
  let o2 := runScan mHr nlFlag o1
  let o3 := runScan mNum nlFlag o2
  let o4 := runScan mPost (fun _ => false) o3
  let o5 := runScan mAnchor nlFlag o4
  let o6 := runScan mDash nlFlag o5
  let o7 := runScan mHash nlFlag o6
  let o8 := runScan mBullet nlFlag o7
  let o9 := runScan mNls nlFlag o8
  runScan mTrail nlFlag o9

/-- Whether a line is blank in the sense of `!line.trim()`. -/
def blankLine (l : List Char) : Bool :=
  l.all wsChar

/-- The consecutive-blank-line filter of `cleanMarkdown` (lines 192–201):
a line is dropped when it is blank and the previous line of the original
array is blank; the carried flag is the blankness of that original
previous line (`index > 0` makes the first line always kept). -/
def filterBlanksGo (prevBlank : Bool) : List (List Char) → List (List Char)
  | [] => []
  | x :: xs =>
    if blankLine x ∧ prevBlank then filterBlanksGo (blankLine x) xs
    else x :: filterBlanksGo (blankLine x) xs

/-- The split / trimEnd / filter / join stage of `cleanMarkdown`. -/
def lineStage (l : List Char) : List Char :=
  joinNl (filterBlanksGo false ((splitNl l).map trimEndL))

/-!
### Link normalisation (`normalizeLinks`, `markdown.js` lines 114–118)

The two chained `replace` calls are embedded as two scans.  The URL
sanitiser is a parameter (`f`), exactly as `normalizeLinks` delegates each
captured URL to `sanitizeUrl`.
-/

/-- Matcher for `replace(/\[([^\]]+)\]\(([^)]+)\)/g, …)`: text is a
non-empty run without `]`, URL a non-empty run without `)`; the
replacement is `[text.trim()](f url)`. -/
def mLink (f : List Char → List Char) : Matcher := fun _ l =>
  match l with
  | '[' :: r =>
    let t := r.takeWhile (fun c => c ≠ ']')
    if t.isEmpty then none
    else
      match r.dropWhile (fun c => c ≠ ']') with
      | ']' :: '(' :: r2 =>
        let u := r2.takeWhile (fun c => c ≠ ')')
        if u.isEmpty then none
        else
          match r2.dropWhile (fun c => c ≠ ')') with
          | ')' :: rest =>
            some ('[' :: jsTrimL t ++ ']' :: '(' :: f u ++ [')'], rest, false)
          | _ => none
      | _ => none
  | _ => none

/-- Matcher for `replace(/!\[([^\]]*)\]\(([^)]+)\)/g, …)`: the image form,
whose alt text may be empty (`(alt || '').trim()`). -/
def mImg (f : List Char → List Char) : Matcher := fun _ l =>
  match l with
  | '!' :: '[' :: r =>
    let t := r.takeWhile (fun c => c ≠ ']')
    match r.dropWhile (fun c => c ≠ ']') with
    | ']' :: '(' :: r2 =>
      let u := r2.takeWhile (fun c => c ≠ ')')
      if u.isEmpty then none
      else
        match r2.dropWhile (fun c => c ≠ ')') with
        | ')' :: rest =>
          some ('!' :: '[' :: jsTrimL t ++ ']' :: '(' :: f u ++ [')'], rest, false)
        | _ => none
    | _ => none
  | _ => none

/-- Embedding of `normalizeLinks` (parameterised by the URL sanitiser,
which the source fixes to `sanitizeUrl`). -/
def normalizeLinksL (f : List Char → List Char) (l : List Char) : List Char :=
  runScan (mImg f) nlFlag (runScan (mLink f) nlFlag l)

/-- Embedding of `cleanMarkdown` (`markdown.js` lines 176–206) on
character lists, parameterised by the URL sanitiser. -/
def cleanMarkdownL (f : List Char → List Char) (l : List Char) : List Char :=
  jsTrimL (normalizeLinksL f (lineStage (cleanPasses l)))

/-!
### Model of the WHATWG `URL` platform class

`sanitizeUrl` (`markdown.js` lines 81–112) relies on Node's built-in `URL`
and `URLSearchParams`.  These are platform libraries, so they are modelled
shallowly here: enough of the WHATWG algorithm to parse absolute http(s)
URLs into scheme / host / path / query / fragment (tab, LF and CR are
stripped from the input, leading and trailing C0-space is trimmed, scheme
and host are lowercased), to resolve scheme-less input against the
`https://placeholder.local` base the source supplies, and to split and
re-serialise the query into name/value pairs.  Percent-decoding of pair
names and values is not modelled. -/

/-- ASCII lowercasing of a single character (model of the lowercasing the
WHATWG parser applies to scheme and host, and of `toLowerCase` on ASCII). -/
def lowerChar (c : Char) : Char :=
  if 'A' ≤ c ∧ c ≤ 'Z' then Char.ofNat (c.toNat + 32) else c

/-- ASCII letter test. -/
def alphaChar (c : Char) : Bool :=
  ('a' ≤ c ∧ c ≤ 'z') || ('A' ≤ c ∧ c ≤ 'Z')

/-- Characters allowed after the first one in a URL scheme
(regex class `[a-zA-Z\d+\-.]`). -/
def schemeChar (c : Char) : Bool :=
  alphaChar c || c.isDigit || c = '+' || c = '-' || c = '.'

/-- Embedding of the `hasProtocol` test of `sanitizeUrl`: the regex
`^[a-zA-Z][a-zA-Z\d+\-.]*:` applied to the raw URL. -/
def hasProtocolB : List Char → Bool
  | [] => false
  | c :: r =>
    alphaChar c &&
      (match r.dropWhile schemeChar with
       | ':' :: _ => true
       | _ => false)

/-- Parsed URL record of the model. -/
structure UrlRec where
  scheme : List Char
  host : List Char
  path : List Char
  query : Option (List Char)
  frag : Option (List Char)
  deriving DecidableEq

/-- WHATWG input preprocessing: trim leading/trailing C0 controls and
space, then remove all tab, LF and CR characters. -/
def stripCtl (l : List Char) : List Char :=
  let t := (l.dropWhile (fun c => c.toNat ≤ 32)).reverse.dropWhile (fun c => c.toNat ≤ 32)
  t.reverse.filter (fun c => ¬ (c = '\t' || c = '\n' || c = '\r'))

/-- Split a path-query-fragment tail into its three components. -/
def splitPQF (l : List Char) : List Char × Option (List Char) × Option (List Char) :=
  let p := l.takeWhile (fun c => c ≠ '?' ∧ c ≠ '#')
  match l.dropWhile (fun c => c ≠ '?' ∧ c ≠ '#') with
  | '?' :: r =>
    let q := r.takeWhile (fun c => c ≠ '#')
    match r.dropWhile (fun c => c ≠ '#') with
    | '#' :: f => (p, some q, some f)
    | _ => (p, some q, none)
  | '#' :: f => (p, none, some f)
  | _ => (p, none, none)

/-- Parse the remainder after `scheme:` for a special (http/https) scheme:
any run of slashes, a non-empty authority, then path/query/fragment.  An
empty host makes the parse fail, as `new URL` throws there. -/
def parseSpecialRest (scheme rest : List Char) : Option UrlRec :=
  let r := rest.dropWhile (fun c => c = '/')
  let auth := r.takeWhile (fun c => c ≠ '/' ∧ c ≠ '?' ∧ c ≠ '#')
  if auth.isEmpty then none
  else
    let (p, q, f) := splitPQF (r.dropWhile (fun c => c ≠ '/' ∧ c ≠ '?' ∧ c ≠ '#'))
    some { scheme := scheme, host := auth.map lowerChar, path := p, query := q, frag := f }

/-- Parse an absolute URL (model of `new URL(raw)` without a base).
Non-special schemes always parse, with the opaque tail kept as the path. -/
def parseAbs (raw : List Char) : Option UrlRec :=
  match stripCtl raw with
  | [] => none
  | c :: r =>
    if alphaChar c then
      let body := r.takeWhile schemeChar
      match r.dropWhile schemeChar with
      | ':' :: rest =>
        let scheme := (c :: body).map lowerChar
        if scheme = "http".data ∨ scheme = "https".data then
          parseSpecialRest scheme rest
        else
          let (p, q, f) := splitPQF rest
          some { scheme := scheme, host := [], path := p, query := q, frag := f }
      | _ => none
    else none

/-- Host of the placeholder base URL `https://placeholder.local` the
source uses for scheme-less input. -/
def placeholderHost : List Char := "placeholder.local".data

/-- Parse a scheme-less URL against the base `https://placeholder.local`
(model of `new URL(raw, 'https://placeholder.local')`; this resolution
never throws). -/
def parseRel (raw : List Char) : UrlRec :=
  match stripCtl raw with
  | '/' :: '/' :: r =>
    match parseSpecialRest "https".data ('/' :: '/' :: r) with
    | some u => u
    | none => { scheme := "https".data, host := placeholderHost, path := [], query := none, frag := none }
  | s =>
    match s with
    | '#' :: f =>
      { scheme := "https".data, host := placeholderHost, path := ['/'], query := none, frag := some f }
    | '?' :: r =>
      let q := r.takeWhile (fun c => c ≠ '#')
      let f := match r.dropWhile (fun c => c ≠ '#') with
        | '#' :: f => some f
        | _ => none
      { scheme := "https".data, host := placeholderHost, path := ['/'], query := q, frag := f }
    | _ =>
      let (p, q, f) := splitPQF s
      let path := match p with
        | '/' :: _ => p
        | _ => '/' :: p
      { scheme := "https".data, host := placeholderHost, path := path, query := q, frag := f }

/-- Serialise a parsed http(s) URL back to a string (model of
`url.toString()`; a special URL with an empty path prints `/`). -/
def serializeUrl (u : UrlRec) : List Char :=
  u.scheme ++ ':' :: '/' :: '/' :: u.host ++
    (if u.path.isEmpty then ['/'] else u.path) ++
    (match u.query with
     | some q => '?' :: q
     | none => []) ++
    (match u.frag with
     | some f => '#' :: f
     | none => [])

/-- Split a raw query on `&`, keeping empty segments for later
filtering. -/
def splitAmp : List Char → List (List Char)
  | [] => [[]]
  | c :: cs =>
    if c = '&' then [] :: splitAmp cs
    else
      match splitAmp cs with
      | [] => [[c]]
      | p :: ps => (c :: p) :: ps

/-- Predicate for scanning up to a marker character. -/
def notEqCh (x c : Char) : Bool := c ≠ x

/-- One query segment as a name/value pair: the name is everything before
the first `=`, the value everything after it. -/
def segPair (seg : List Char) : List Char × List Char :=
  let k := seg.takeWhile (notEqCh '=')
  match seg.dropWhile (notEqCh '=') with
  | '=' :: v => (k, v)
  | _ => (k, [])

/-- Name/value pairs of a raw query string (model of iterating
`url.searchParams`; empty segments are skipped, percent-decoding is not
modelled). -/
def pairsOf (q : List Char) : List (List Char × List Char) :=
  ((splitAmp q).filter (fun seg => !seg.isEmpty)).map segPair

/-- Serialise name/value pairs (model of `URLSearchParams.toString`,
which always prints `name=value` and joins the pairs with `&`). -/
def serializePairs : List (List Char × List Char) → List Char
  | [] => []
  | [p] => p.1 ++ '=' :: p.2
  | p :: q :: rest => p.1 ++ '=' :: p.2 ++ '&' :: serializePairs (q :: rest)

/-- Boolean list-starts-with test. -/
def startsWithL : List Char → List Char → Bool
  | [], _ => true
  | _ :: _, [] => false
  | p :: ps, c :: cs => p = c && startsWithL ps cs

/-- `TRACKER_EXACT` of `markdown.js` line 7. -/
def trackerExact : List (List Char) :=
  ["gclid".data, "fbclid".data, "igshid".data]

/-- `TRACKER_PREFIXES` of `markdown.js` line 6. -/
def trackerHeads : List (List Char) :=
  ["utm_".data, "ref".data, "mc_".data, "smid".data]

/-- The tracking-parameter test of `sanitizeUrl` lines 96–100: the
lowercased name is an exact tracker name or starts with a tracker head. -/
def isTrackerKey (k : List Char) : Bool :=
  let lk := k.map lowerChar
  trackerExact.contains lk || trackerHeads.any (fun p => startsWithL p lk)

/-- Strip the leading `https://placeholder.local` (the final
`replace(regex, '')` of `sanitizeUrl`, anchored at the start). -/
def stripPlaceholder (l : List Char) : List Char :=
  let pfx := "https://placeholder.local".data
  if startsWithL pfx l then l.drop pfx.length else l

/-- Embedding of `sanitizeUrl` (`markdown.js` lines 81–112) over the URL
model: falsy input is returned as is; input with a non-http(s) scheme is
returned as is; input that fails to parse is returned as is (the `catch`
branch); otherwise the fragment is cleared, the collected tracking keys
are deleted from the query (which re-serialises it only when a deletion
happened), and the URL is re-serialised, with the placeholder prefix
stripped for scheme-less input. -/
def sanitizeUrlL (raw : List Char) : List Char :=
  if raw.isEmpty then raw
  else
    let hasP := hasProtocolB raw
    match (if hasP then parseAbs raw else some (parseRel raw)) with
    | none => raw
    | some url =>
      if hasP ∧ ¬ (url.scheme = "http".data ∨ url.scheme = "https".data) then raw
      else
        let url1 : UrlRec := { url with frag := none }
        let ps := pairsOf (url1.query.getD [])
        let keysToDelete := (ps.filter (fun p => isTrackerKey p.1)).map Prod.fst
        let url2 : UrlRec :=
          if keysToDelete.isEmpty then url1
          else
            let remaining := keysToDelete.foldl (fun acc k => acc.filter (fun p => p.1 ≠ k)) ps
            let ser := serializePairs remaining
            { url1 with query := if ser.isEmpty then none else some ser }
        let out := serializeUrl url2
        if hasP then out else stripPlaceholder out

/-- The URL sanitiser on strings. -/
def sanitizeUrl (s : String) : String :=
  ⟨sanitizeUrlL s.data⟩

/-- `cleanMarkdown` with the link sanitiser the source installs. -/
def cleanMarkdownStr (s : String) : String :=
  ⟨cleanMarkdownL sanitizeUrlL s.data⟩

/-- Embedding of the `cleanMarkdown` entry behaviour on possibly-missing
input: `if (!markdown) return ''` maps `null`/`undefined` (here `none`)
and the empty string to `''`. -/
def cleanMarkdownJS : Option String → String
  | none => ""
  | some s => if s = "" then "" else cleanMarkdownStr s

/-!
### Handler results and hashing (C2)

`processHtml` (`htmlHandler.js` lines 8–22) and `processPdfBuffer`
(`pdfHandler.js` lines 28–38).  The SHA-256 hex digest (`crypto`), the
Turndown HTML→Markdown converter and the pdf2md PDF→Markdown converter
are platform/third-party libraries and enter as function parameters. -/

/-- Page metadata as collected by `extractHtmlContent`. -/
structure HtmlMetadata where
  title : Option String
  description : Option String
  h1 : List String
  h2 : List String
  deriving DecidableEq

/-- Result shape shared by the HTML and PDF handlers:
`{ url, hash, headers, metadata, redirects, markdown }`. -/
structure HandlerResult where
  url : String
  hash : String
  contentType : String
  upstreamStatus : Nat
  metadata : HtmlMetadata
  redirects : List String
  markdown : String
  deriving DecidableEq

/-- Markdown produced by `extractHtmlContent` (`markdown.js` line 337):
`cleanMarkdown(turndown.turndown(htmlForMarkdown))`. -/
def extractedMarkdown (turndownF : String → String) (pageHtml : String) : String :=
  cleanMarkdownStr (turndownF pageHtml)

/-- Embedding of `processHtml` (`htmlHandler.js` lines 8–22): extract the
markdown, hash it with SHA-256 (`sha`), and assemble the result. -/
def processHtml (sha turndownF : String → String) (pageHtml : String)
    (metadata : HtmlMetadata) (respContentType : Option String) (respStatus : Nat)
    (url : String) (redirects : List String) : HandlerResult :=
  let markdown := extractedMarkdown turndownF pageHtml
  { url := url
    hash := sha markdown
    contentType := respContentType.getD "text/html"
    upstreamStatus := respStatus
    metadata := metadata
    redirects := redirects
    markdown := markdown }

/-- Embedding of `convertPdfBufferToMarkdown` (`markdown.js` lines
345–348): `cleanMarkdown(await pdf2md(buffer, {}))`. -/
def convertPdfBufferToMarkdown (pdf2mdF : List Nat → String) (buffer : List Nat) : String :=
  cleanMarkdownStr (pdf2mdF buffer)

/-- Embedding of `processPdfBuffer` (`pdfHandler.js` lines 28–38). -/
def processPdfBuffer (sha : String → String) (pdf2mdF : List Nat → String)
    (buffer : List Nat) (url : String) : HandlerResult :=
  let markdown := convertPdfBufferToMarkdown pdf2mdF buffer
  { url := url
    hash := sha markdown
    contentType := "application/pdf"
    upstreamStatus := 200
    metadata := { title := none, description := none, h1 := [], h2 := [] }
    redirects := []
    markdown := markdown }

/-!
### Status reporting (C3)

The `reportedStatus` computation and the payload assembly of the current
crawl handlers (`markdown.js` appended handler lines 567–607, also
`part_005` lines 294–334 and `part_006` lines 407–446), and the
`expressStatus` rule of the legacy `server.js` route (lines 320–347). -/

/-- Embedding of the `reportedStatus` closure: PDF crawls report 200,
missing or informational upstream statuses report 200, and upstream
statuses of 400 and above are folded to 200. -/
def reportedStatus (processedAsPdf : Bool) (upstreamStatus : Nat) : Nat :=
  if processedAsPdf then 200
  else if upstreamStatus = 0 ∨ upstreamStatus < 200 then 200
  else if 400 ≤ upstreamStatus then 200
  else upstreamStatus

/-- The `headers` object of the crawl response payload. -/
structure PayloadHeaders where
  statusCode : Nat
  contentEncoding : Option String
  contentType : Option String
  expires : Option String
  deriving DecidableEq

/-- Transport status plus payload headers of one crawl HTTP response. -/
structure CrawlHttpResponse where
  transportStatus : Nat
  headers : PayloadHeaders
  deriving DecidableEq

/-- Embedding of the response assembly of the current handlers: the
payload's `statusCode` is `reportedStatus`, and the Express reply is
`res.status(200).json(responsePayload)`. -/
def assembleCrawlResponse (processedAsPdf : Bool) (upstreamStatus : Nat)
    (ce ct ex : Option String) : CrawlHttpResponse :=
  { transportStatus := 200
    headers :=
      { statusCode := reportedStatus processedAsPdf upstreamStatus
        contentEncoding := ce
        contentType := ct
        expires := ex } }

/-- Embedding of the legacy `server.js` rule
`upstreamStatus >= 400 ? upstreamStatus : 200` used as the transport
status there. -/
def expressStatus (upstreamStatus : Nat) : Nat :=
  if 400 ≤ upstreamStatus then upstreamStatus else 200

/-!
### Redirect-limit interception (C5)

`server.js` lines 61 and 204–252: a navigation request whose puppeteer
`redirectChain()` is longer than `MAX_REDIRECTS` is aborted and the crawl
answers 310 with the observed count.  The browser is modelled as issuing
the navigation request after `k` redirects with a redirect chain of
length `k`, for `k = 0, 1, …`. -/

/-- `MAX_REDIRECTS` (`server.js` line 61). -/
def MAX_REDIRECTS : Nat := 5

/-- The interception predicate of `handleRequest` (`server.js` line 210):
abort when `request.redirectChain().length > MAX_REDIRECTS`. -/
def interceptAborts (chainLen : Nat) : Bool :=
  decide (MAX_REDIRECTS < chainLen)

/-- First redirect depth at which the interceptor aborts a navigation
that performs `redirects` redirects (the requests have chain lengths
`0 … redirects`), if any. -/
def observedAbort (redirects : Nat) : Option Nat :=
  (List.range (redirects + 1)).find? interceptAborts

/-- Outcome of the navigation under interception. -/
inductive NavOutcome where
  | completed : NavOutcome
  | redirectLimitExceeded (status : Nat) (error : String) (redirects : Nat) : NavOutcome
  deriving DecidableEq

/-- Embedding of the redirect-limit branch of the `/crawl` route
(`server.js` lines 230–243): an aborted navigation yields status 310 with
the observed redirect count; otherwise navigation completes. -/
def crawlNavOutcome (redirects : Nat) : NavOutcome :=
  match observedAbort redirects with
  | some k => .redirectLimitExceeded 310 "Exceeded redirect limit of 5" k
  | none => .completed

/-!
### URL validation before browser acquisition (C6)

The validation prologue shared by every crawl handler
(`browserService.js` lines 19–33, `crawlService.js` lines 128–145):
missing parameter, unparseable URL and non-http(s) scheme are rejected
with 400 before any browser resource is touched.  `new URL(url)` is the
platform URL parser, modelled by `parseAbs`. -/

/-- Browser-side effects of a crawl in the order the handler would
perform them. -/
inductive BrowserEffect where
  | launch : BrowserEffect
  | newContext : BrowserEffect
  | setTimeouts : BrowserEffect
  | newPage : BrowserEffect
  | gotoNav : BrowserEffect
  deriving DecidableEq

/-- Outcome of the handler prologue: an early rejection, or entry into
the browser pipeline with its effects. -/
inductive EntryOutcome where
  | rejected (status : Nat) (error : String) : EntryOutcome
  | proceeded (effects : List BrowserEffect) : EntryOutcome
  deriving DecidableEq

/-- Embedding of the `handleCrawl` prologue: parameter check, `new URL`
parse, scheme check, and only then the browser pipeline. -/
def handleCrawlEntry (urlParam : Option String) : EntryOutcome :=
  match urlParam with
  | none => .rejected 400 "Missing url query parameter"
  | some url =>
    match parseAbs url.data with
    | none => .rejected 400 "Invalid URL"
    | some u =>
      if u.scheme = "http".data ∨ u.scheme = "https".data then
        .proceeded [.launch, .newContext, .setTimeouts, .newPage, .gotoNav]
      else .rejected 400 "Only http and https protocols are supported"

/-- Browser effects an outcome performed (a rejection performs none). -/
def effectsOf : EntryOutcome → List BrowserEffect
  | .rejected _ _ => []
  | .proceeded es => es

/-!
### Redirect chain construction (C7)

`browserService.js` lines 80–99: the chain is built by walking
`response.request()` through `redirectedFrom()` back to the origin,
prepending each URL.  A Playwright request is modelled as the list of its
lineage URLs, most recent first (head = the request's own URL, tail = its
`redirectedFrom` request); a navigation of `target` that goes through the
hops `redirects` produces the final request `(target :: redirects).reverse`
and a response whose URL is the last hop. -/

/-- Embedding of the walk `while (req) { chain.unshift(req.url()); req =
req.redirectedFrom(); }`. -/
def walkChain : List String → List String
  | [] => []
  | u :: prev => walkChain prev ++ [u]

/-- Final request of a navigation, most recent URL first. -/
def navFinalRequest (target : String) (redirects : List String) : List String :=
  (target :: redirects).reverse

/-- URL of the navigation response (`response.url()`): the last visited
hop. -/
def navResponseUrl (target : String) (redirects : List String) : String :=
  (target :: redirects).getLast (List.cons_ne_nil _ _)

/-- Embedding of the chain construction, including the fallback
`chain.length ? chain : [finalUrl]`. -/
def redirectChainOf (target : String) (redirects : List String) : List String :=
  let chain := walkChain (navFinalRequest target redirects)
  if chain.isEmpty then [navResponseUrl target redirects] else chain

/-!
### Heading collection (C8)

`uniqueText` of `extractHtmlContent` (`markdown.js` lines 284–288) and
the degraded regex fallback (`markdown.js` lines 322–330).  The DOM query
and the tag-stripping regex are abstracted: both collectors take the raw
heading texts in document order. -/

/-- Embedding of `uniqueText`: trim, drop empties, then keep an entry
only at its first index (`arr.indexOf(text) === index`). -/
def uniqueText (texts : List String) : List String :=
  let arr := (texts.map jsTrimStr).filter (fun t => !t.isEmpty)
  (arr.enum.filter (fun p => arr.findIdx (fun x => x = p.2) = p.1)).map Prod.snd

/-- Insertion-order de-duplication (model of `Array.from(new Set(xs))`). -/
def setDedup (l : List String) : List String :=
  l.foldl (fun acc t => if t ∈ acc then acc else acc ++ [t]) []

/-- Embedding of the fallback heading collection (`markdown.js` lines
322–330): trimmed non-empty texts, de-duplicated via `Set`, then
`slice(0, 5)`. -/
def fallbackHeadings (texts : List String) : List String :=
  (setDedup ((texts.map jsTrimStr).filter (fun t => !t.isEmpty))).take 5

/-- The trimmed non-empty heading array both collectors start from. -/
def headingArr (texts : List String) : List String :=
  (texts.map jsTrimStr).filter (fun t => !t.isEmpty)

/-!
### Human-verification polling (C9)

`waitForHumanVerification` (`server.js` lines 378–402 with the constants
of lines 63–64; the identical copy in `crawlService.js` lines 58–78 reads
the same two constants from `config.js`).  Real time is modelled
discretely: the k-th read happens at elapsed time `k * interval`, and
each sleep advances time by exactly the poll interval.  A read is
`none` when `page.evaluate` throws (the `catch` branch ignores it). -/

/-- `HUMAN_VERIFICATION_TIMEOUT_MS`. -/
def VERIFICATION_TIMEOUT_MS : Nat := 45000

/-- `HUMAN_VERIFICATION_CHECK_INTERVAL_MS`. -/
def VERIFICATION_INTERVAL_MS : Nat := 2000

/-- Substring test on character lists. -/
def containsSub (pat : List Char) : List Char → Bool
  | [] => pat.isEmpty
  | c :: cs => startsWithL pat (c :: cs) || containsSub pat cs

/-- The challenge phrasings of `HUMAN_VERIFICATION_PATTERNS`, written out
as the lowercase literals the four case-insensitive regexes accept
(`verify(?:ing)? you are human` contributes two). -/
def challengePhrases : List String :=
  ["verify you are human", "verifying you are human",
   "needs to review the security of your connection",
   "checking your browser before accessing", "press and hold"]

/-- Embedding of the pattern test `HUMAN_VERIFICATION_PATTERNS.some(p =>
p.test(text))`. -/
def hasChallenge (text : String) : Bool :=
  challengePhrases.any (fun p => containsSub p.data (text.data.map lowerChar))

/-- Result of the poller. -/
structure VerifResult where
  cleared : Bool
  waitedMs : Nat
  deriving DecidableEq

/-- One polling loop (fuel, iteration index): while the elapsed time is
under the timeout, read the page text; a read matching no pattern returns
cleared immediately, otherwise (or on a failed read) sleep one interval
and retry; past the deadline return not cleared. -/
def pollGo (reads : Nat → Option String) : Nat → Nat → VerifResult
  | 0, k => ⟨false, k * VERIFICATION_INTERVAL_MS⟩
  | fuel + 1, k =>
    if k * VERIFICATION_INTERVAL_MS < VERIFICATION_TIMEOUT_MS then
      match reads k with
      | some t =>
        if hasChallenge t then pollGo reads fuel (k + 1)
        else ⟨true, k * VERIFICATION_INTERVAL_MS⟩
      | none => pollGo reads fuel (k + 1)
    else ⟨false, k * VERIFICATION_INTERVAL_MS⟩

/-- Embedding of `waitForHumanVerification` over the sequence of page
texts it reads (24 iterations of fuel cover the 23 reads that fit within
the 45000 ms deadline at 2000 ms intervals). -/
def waitForHumanVerification (reads : Nat → Option String) : VerifResult :=
  pollGo reads 24 0

/-- Embedding of the caller branch (`crawlService.js` lines 263–270,
`server.js` lines 282–289): an uncleared verification fails the crawl
with HTTP 524 and the VerificationTimeout message; a cleared one
continues (`none`). -/
def verificationFailure (r : VerifResult) : Option (Nat × String) :=
  if r.cleared then none
  else some (524, "Verification challenge did not clear within 45000ms")

/-!
### Output-shape predicates (C10)

`Seg p l` states that `p` occurs as a contiguous segment of `l`.  A
normalised document never contains three consecutive newlines, nor
whitespace directly before a newline; together with trimmed edges this
says no two consecutive blank lines survive. -/

/-- Contiguous-segment (substring) predicate. -/
def Seg (p l : List Char) : Prop :=
  ∃ a b, l = a ++ (p ++ b)

/-- The two forbidden patterns: a triple newline, or whitespace other
than newline directly before a newline. -/
def BadPat (p : List Char) : Prop :=
  p = ['\n', '\n', '\n'] ∨ ∃ w, wsNoNl w = true ∧ p = [w, '\n']

/-- A character list is tidy when no forbidden pattern occurs in it. -/
def Tidy (l : List Char) : Prop :=
  ∀ p, BadPat p → ¬ Seg p l

/-- Length of the leading newline run. -/
def leadNl : List Char → Nat
  | [] => 0
  | c :: cs => if c = '\n' then leadNl cs + 1 else 0

/-- A list starting with a non-whitespace character. -/
def StartsSolid (l : List Char) : Prop :=
  ∃ c t, l = c :: t ∧ wsChar c = false

/-- A list ending with a non-whitespace character. -/
def EndsSolid (l : List Char) : Prop :=
  ∃ a c, l = a ++ [c] ∧ wsChar c = false

/-- No two adjacent blank lines in a line list. -/
def NoAdjBlank : List (List Char) → Prop
  | [] => True
  | [_] => True
  | x :: y :: rest => ¬ (blankLine x = true ∧ blankLine y = true) ∧ NoAdjBlank (y :: rest)

/-- All fields of a parsed URL record are free of newline characters. -/
def UrlNoNl (u : UrlRec) : Prop :=
  '\n' ∉ u.scheme ∧ '\n' ∉ u.host ∧ '\n' ∉ u.path ∧
    (∀ q, u.query = some q → '\n' ∉ q) ∧ (∀ f, u.frag = some f → '\n' ∉ f)

/-!
## Theorems
-/

/-- C1: Markdown normalization is NOT idempotent.  On the input
`"---\n#\nPost"` the empty-heading rule (which runs after the
`---`+`Post` boilerplate rule) removes the `#` line and leaves
`"---\n\nPost"`; a second application then matches the boilerplate rule
and collapses everything to the empty string, so
`cleanMarkdown(cleanMarkdown(x)) ≠ cleanMarkdown(x)` at this input,
contradicting the claimed identity for every Markdown string. -/
theorem C1_markdown_normalization_not_idempotent :
    cleanMarkdownStr "---\n#\nPost" = "---\n\nPost" ∧
    cleanMarkdownStr (cleanMarkdownStr "---\n#\nPost") = "" ∧
    cleanMarkdownStr (cleanMarkdownStr "---\n#\nPost") ≠ cleanMarkdownStr "---\n#\nPost" := by
  refine ⟨by decide, by decide, by decide⟩

/-- C2: on both handler paths the hash field equals the digest (`sha`)
of exactly the markdown string returned in the same result, that
markdown is the normalized output (`cleanMarkdown` applied to the
converter output, so the hash is computed neither over raw bytes nor
over pre-normalization markdown), and identical final markdown yields
identical hash. -/
theorem C2_hash_of_final_normalized_markdown :
    ∀ (sha turndownF : String → String) (pdf2mdF : List Nat → String)
      (pageHtml : String) (md : HtmlMetadata) (ct : Option String) (st : Nat)
      (url1 url2 : String) (rs : List String) (buffer : List Nat),
      (processHtml sha turndownF pageHtml md ct st url1 rs).hash
          = sha (processHtml sha turndownF pageHtml md ct st url1 rs).markdown ∧
      (processHtml sha turndownF pageHtml md ct st url1 rs).markdown
          = cleanMarkdownStr (turndownF pageHtml) ∧
      (processPdfBuffer sha pdf2mdF buffer url2).hash
          = sha (processPdfBuffer sha pdf2mdF buffer url2).markdown ∧
      (processPdfBuffer sha pdf2mdF buffer url2).markdown
          = cleanMarkdownStr (pdf2mdF buffer) ∧
      ((processHtml sha turndownF pageHtml md ct st url1 rs).markdown
          = (processPdfBuffer sha pdf2mdF buffer url2).markdown →
        (processHtml sha turndownF pageHtml md ct st url1 rs).hash
          = (processPdfBuffer sha pdf2mdF buffer url2).hash) := by
  intro sha turndownF pdf2mdF pageHtml md ct st url1 url2 rs buffer
  exact ⟨rfl, rfl, rfl, rfl, fun h => congrArg sha h⟩

/-- Witness for C2 at concrete arguments: both handlers produce the same
markdown, hence the same hash. -/
theorem C2_hash_of_final_normalized_markdown_witness :
    (processHtml id (fun _ => "m *x*") "<p>x</p>" ⟨none, none, [], []⟩ none 200 "u1" []).hash
      = (processPdfBuffer id (fun _ => "m *x*") [37, 80, 68, 70] "u2").hash :=
  (C2_hash_of_final_normalized_markdown id (fun _ => "m *x*") (fun _ => "m *x*")
    "<p>x</p>" ⟨none, none, [], []⟩ none 200 "u1" "u2" [] [37, 80, 68, 70]).2.2.2.2 rfl

/-- C3 counterexample: a completed HTML crawl of a 404 page answers with
transport status 200 as claimed, but the payload's `headers.statusCode`
field is the folded `reportedStatus` 200, not the upstream 404 — the
upstream status is not surfaced inside the payload. -/
theorem C3_upstream_status_not_in_payload :
    (assembleCrawlResponse false 404 none none none).transportStatus = 200 ∧
    (assembleCrawlResponse false 404 none none none).headers.statusCode = 200 ∧
    (assembleCrawlResponse false 404 none none none).headers.statusCode ≠ 404 := by
  refine ⟨by decide, by decide, by decide⟩

/-- C3 amended: for every completed crawl with upstream status ≥ 400 the
current handlers respond with transport status 200 and also report 200 in
the payload's `headers.statusCode` (the upstream status appears only in
log lines); the legacy `server.js` route instead uses the upstream status
itself as its transport status. -/
theorem C3_status_folding :
    ∀ (pdf : Bool) (u : Nat) (ce ct ex : Option String), 400 ≤ u →
      (assembleCrawlResponse pdf u ce ct ex).transportStatus = 200 ∧
      (assembleCrawlResponse pdf u ce ct ex).headers.statusCode = 200 ∧
      expressStatus u = u := by
  intro pdf u ce ct ex h
  have h1 : ¬ (u = 0 ∨ u < 200) := by omega
  refine ⟨rfl, ?_, by simp [expressStatus, h]⟩
  cases pdf <;> simp [assembleCrawlResponse, reportedStatus, h1, h]

/-- Witness for C3 amended at upstream status 404. -/
theorem C3_status_folding_witness :
    (assembleCrawlResponse false 404 none none none).transportStatus = 200 ∧
    (assembleCrawlResponse false 404 none none none).headers.statusCode = 200 ∧
    expressStatus 404 = 404 :=
  C3_status_folding false 404 none none none (by decide)

/-- C5: under the redirect limit of 5, a navigation with exactly 5
redirects is never intercepted and the crawl completes, while a
navigation with 6 redirects is aborted and reported as
`RedirectLimitExceeded` (HTTP 310, "Exceeded redirect limit of 5") with
an observed count of 6. -/
theorem C5_redirect_limit_boundary :
    crawlNavOutcome 5 = .completed ∧
    crawlNavOutcome 6 = .redirectLimitExceeded 310 "Exceeded redirect limit of 5" 6 := by
  refine ⟨by decide, by decide⟩

/-- C6: a missing URL, a string that does not parse as a URL, and a URL
whose scheme is not http/https are all rejected with HTTP 400 before any
browser effect (launch, context, page, navigation) is performed. -/
theorem C6_validation_precedes_browser_acquisition :
    ∀ url : String,
      (parseAbs url.data = none →
        handleCrawlEntry (some url) = .rejected 400 "Invalid URL" ∧
        effectsOf (handleCrawlEntry (some url)) = []) ∧
      (∀ u, parseAbs url.data = some u →
        ¬ (u.scheme = "http".data ∨ u.scheme = "https".data) →
        handleCrawlEntry (some url)
            = .rejected 400 "Only http and https protocols are supported" ∧
        effectsOf (handleCrawlEntry (some url)) = []) ∧
      (handleCrawlEntry none = .rejected 400 "Missing url query parameter" ∧
        effectsOf (handleCrawlEntry none) = []) := by
  intro url
  refine ⟨?_, ?_, ⟨rfl, rfl⟩⟩
  · intro h
    simp [handleCrawlEntry, h, effectsOf]
  · intro u hu hs
    simp [handleCrawlEntry, hu, hs, effectsOf]

/-- Witness for C6: the concrete inputs `ftp://example.com/a` (valid URL,
unsupported scheme) and `not a url` (unparseable) are both rejected with
no browser effect. -/
theorem C6_validation_precedes_browser_acquisition_witness :
    (handleCrawlEntry (some "ftp://example.com/a")
        = .rejected 400 "Only http and https protocols are supported" ∧
      effectsOf (handleCrawlEntry (some "ftp://example.com/a")) = []) ∧
    (handleCrawlEntry (some "not a url") = .rejected 400 "Invalid URL" ∧
      effectsOf (handleCrawlEntry (some "not a url")) = []) :=
  ⟨(C6_validation_precedes_browser_acquisition "ftp://example.com/a").2.1
      ⟨"ftp".data, [], "//example.com/a".data, none, none⟩ (by decide) (by decide),
    (C6_validation_precedes_browser_acquisition "not a url").1 (by decide)⟩

/-- The redirect-chain walk reverses the lineage list. -/
theorem walkChain_eq_reverse : ∀ l : List String, walkChain l = l.reverse := by
  intro l
  induction l with
  | nil => rfl
  | cons u prev ih => simp [walkChain, ih, List.reverse_cons]

/-- C7: for every navigation that yields a response, the recorded
redirect chain is `target :: redirects` — ordered origin first, so its
first element is the originally requested URL and its last element is
the response's final URL. -/
theorem C7_redirect_chain_origin_first :
    ∀ (target : String) (redirects : List String),
      redirectChainOf target redirects = target :: redirects ∧
      (redirectChainOf target redirects).head? = some target ∧
      (redirectChainOf target redirects).getLast?
          = some (navResponseUrl target redirects) := by
  intro t rs
  have h : redirectChainOf t rs = t :: rs := by
    simp [redirectChainOf, navFinalRequest, walkChain_eq_reverse]
  refine ⟨h, by rw [h]; rfl, ?_⟩
  rw [h, navResponseUrl]
  exact List.getLast?_eq_getLast _ _

/-- The polling loop times out at the 23rd tick (elapsed 46000 ms) when
every read within the deadline matches a challenge pattern. -/
theorem pollGo_timeout (reads : Nat → Option String)
    (hc : ∀ j, j * VERIFICATION_INTERVAL_MS < VERIFICATION_TIMEOUT_MS →
      ∃ t, reads j = some t ∧ hasChallenge t = true) :
    ∀ fuel k, 23 ≤ fuel + k → k ≤ 23 →
      pollGo reads fuel k = ⟨false, 46000⟩ := by
  intro fuel
  induction fuel with
  | zero =>
    intro k h1 h2
    have hk : k = 23 := by omega
    subst hk
    simp [pollGo, VERIFICATION_INTERVAL_MS]
  | succ fuel ih =>
    intro k h1 h2
    by_cases hk : k * VERIFICATION_INTERVAL_MS < VERIFICATION_TIMEOUT_MS
    · obtain ⟨t, ht, hch⟩ := hc k hk
      have hk22 : k ≤ 22 := by
        simp [VERIFICATION_INTERVAL_MS, VERIFICATION_TIMEOUT_MS] at hk
        omega
      simp only [pollGo, if_pos hk, ht, hch, if_pos]
      exact ih (k + 1) (by omega) (by omega)
    · have hk23 : k = 23 := by
        simp [VERIFICATION_INTERVAL_MS, VERIFICATION_TIMEOUT_MS] at hk
        omega
      subst hk23
      have hstep : pollGo reads (fuel + 1) 23 = ⟨false, 23 * VERIFICATION_INTERVAL_MS⟩ := by
        simp only [pollGo, if_neg hk]
      rw [hstep]
      decide

/-- The polling loop clears at the first read that matches no challenge
pattern. -/
theorem pollGo_clears (reads : Nat → Option String) (n : Nat) (tN : String)
    (hn : n * VERIFICATION_INTERVAL_MS < VERIFICATION_TIMEOUT_MS)
    (hbefore : ∀ j, j < n → ∀ t, reads j = some t → hasChallenge t = true)
    (hread : reads n = some tN) (hclear : hasChallenge tN = false) :
    ∀ fuel k, k ≤ n → n < fuel + k →
      pollGo reads fuel k = ⟨true, n * VERIFICATION_INTERVAL_MS⟩ := by
  intro fuel
  induction fuel with
  | zero => intro k h1 h2; omega
  | succ fuel ih =>
    intro k h1 h2
    rcases Nat.eq_or_lt_of_le h1 with hkn | hkn
    · subst hkn
      simp [pollGo, if_pos hn, hread, hclear]
    · have hkd : k * VERIFICATION_INTERVAL_MS < VERIFICATION_TIMEOUT_MS := by
        have : k * VERIFICATION_INTERVAL_MS ≤ n * VERIFICATION_INTERVAL_MS :=
          Nat.mul_le_mul_right _ (by omega)
        omega
      have step : pollGo reads (fuel + 1) k = pollGo reads fuel (k + 1) := by
        cases hr : reads k with
        | none => simp [pollGo, if_pos hkd, hr]
        | some t =>
          have := hbefore k hkn t hr
          simp [pollGo, if_pos hkd, hr, this]
      rw [step]
      exact ih (k + 1) (by omega) (by omega)

/-- C9: the human-verification poller returns `{cleared := true,
waitedMs}` at the first read that matches no known challenge pattern
(immediately, with zero wait, when that is the first read), and when
every read within the maximum total wait matches a challenge pattern it
returns `{cleared := false, …}` and the crawl fails with HTTP 524, the
VerificationTimeout condition. -/
theorem C9_verification_poller :
    ∀ reads : Nat → Option String,
      (∀ n tN, n * VERIFICATION_INTERVAL_MS < VERIFICATION_TIMEOUT_MS →
        (∀ j, j < n → ∀ t, reads j = some t → hasChallenge t = true) →
        reads n = some tN → hasChallenge tN = false →
        waitForHumanVerification reads = ⟨true, n * VERIFICATION_INTERVAL_MS⟩ ∧
        verificationFailure (waitForHumanVerification reads) = none) ∧
      ((∀ j, j * VERIFICATION_INTERVAL_MS < VERIFICATION_TIMEOUT_MS →
          ∃ t, reads j = some t ∧ hasChallenge t = true) →
        waitForHumanVerification reads = ⟨false, 46000⟩ ∧
        verificationFailure (waitForHumanVerification reads)
            = some (524, "Verification challenge did not clear within 45000ms")) := by
  intro reads
  constructor
  · intro n tN hn hb hr hc
    have h23 : n ≤ 23 := by
      simp [VERIFICATION_INTERVAL_MS, VERIFICATION_TIMEOUT_MS] at hn
      omega
    have h := pollGo_clears reads n tN hn hb hr hc 24 0 (by omega) (by omega)
    rw [waitForHumanVerification, h]
    exact ⟨rfl, by simp [verificationFailure]⟩
  · intro hc
    have h := pollGo_timeout reads hc 24 0 (by omega) (by omega)
    rw [waitForHumanVerification, h]
    exact ⟨rfl, by simp [verificationFailure]⟩

/-- C8 counterexample: in the degraded fallback path of
`extractHtmlContent` (execution context destroyed), six distinct
non-empty h1 headings are collected but `slice(0, 5)` drops the sixth
entirely, so the metadata does not contain each distinct non-empty
heading exactly once. -/
theorem C8_fallback_drops_sixth_heading :
    fallbackHeadings ["a", "b", "c", "d", "e", "f"] = ["a", "b", "c", "d", "e"] ∧
    "f" ∉ fallbackHeadings ["a", "b", "c", "d", "e", "f"] ∧
    "f" ∈ (["a", "b", "c", "d", "e", "f"].map jsTrimStr) ∧
    ("f" : String) ≠ "" := by
  refine ⟨by decide, by decide, by decide, by decide⟩

/-- The kept pairs of `uniqueText` have pairwise-distinct second
components, because a kept pair's index is the first index of its text. -/
theorem uniqueText_nodup (texts : List String) : (uniqueText texts).Nodup := by
  have henum : (headingArr texts).enum.Nodup := by
    have h1 : ((headingArr texts).enum.map Prod.fst).Nodup := by
      rw [List.enum_map_fst]
      exact List.nodup_range _
    exact h1.of_map
  have hfilt : ((headingArr texts).enum.filter
      (fun p => (headingArr texts).findIdx (fun x => x = p.2) = p.1)).Nodup :=
    henum.filter _
  refine List.Nodup.map_on ?_ hfilt
  intro p1 h1 p2 h2 hsnd
  have q1 := (List.mem_filter.mp h1).2
  have q2 := (List.mem_filter.mp h2).2
  have e1 : (headingArr texts).findIdx (fun x => x = p1.2) = p1.1 := by
    simpa using q1
  have e2 : (headingArr texts).findIdx (fun x => x = p2.2) = p2.1 := by
    simpa using q2
  have : p1.1 = p2.1 := by
    rw [← e1, ← e2, hsnd]
  exact Prod.ext this hsnd

/-- Every trimmed non-empty heading is kept by `uniqueText`. -/
theorem uniqueText_mem (texts : List String) (t : String)
    (ht : t ∈ headingArr texts) : t ∈ uniqueText texts := by
  classical
  set arr := headingArr texts with harr
  have hex : ∃ x ∈ arr, (fun x => decide (x = t)) x = true := ⟨t, ht, by simp⟩
  have hlt : arr.findIdx (fun x => x = t) < arr.length :=
    List.findIdx_lt_length_of_exists hex
  have hget : arr.get ⟨arr.findIdx (fun x => x = t), hlt⟩ = t := by
    have := @List.findIdx_getElem _ (fun x => decide (x = t)) arr hlt
    simpa using this
  have hpair : (arr.findIdx (fun x => x = t), t) ∈ arr.enum := by
    refine List.mem_enum_iff_getElem?.mpr ?_
    rw [List.getElem?_eq_getElem hlt]
    simpa [List.get_eq_getElem] using congrArg some hget
  have hkeep : (arr.findIdx (fun x => x = t), t) ∈ arr.enum.filter
      (fun p => arr.findIdx (fun x => x = p.2) = p.1) := by
    refine List.mem_filter.mpr ⟨hpair, by simp⟩
  exact List.mem_map_of_mem Prod.snd hkeep

/-- The kept headings are a sublist of the trimmed heading texts. -/
theorem uniqueText_sublist (texts : List String) :
    List.Sublist (uniqueText texts) (texts.map jsTrimStr) := by
  have h1 : List.Sublist ((headingArr texts).enum.filter
      (fun p => (headingArr texts).findIdx (fun x => x = p.2) = p.1))
      (headingArr texts).enum := List.filter_sublist _
  have h2 := List.Sublist.map Prod.snd h1
  rw [List.enum_map_snd] at h2
  exact h2.trans (List.filter_sublist _)

/-- C8 amended: on the primary extraction path (`uniqueText`) the h1/h2
metadata contains each distinct non-empty trimmed heading exactly once
(count one when present, zero otherwise), contains no empty entry, and
preserves document order (it is a sublist of the trimmed heading list);
the degraded regex fallback additionally truncates the de-duplicated
list to its first five entries. -/
theorem C8_headings_deduplicated :
    ∀ texts : List String,
      (uniqueText texts).Nodup ∧
      (∀ t : String, ¬ t.isEmpty →
        (t ∈ texts.map jsTrimStr → (uniqueText texts).count t = 1) ∧
        (t ∉ texts.map jsTrimStr → (uniqueText texts).count t = 0)) ∧
      (∀ t, t ∈ uniqueText texts → ¬ t.isEmpty) ∧
      List.Sublist (uniqueText texts) (texts.map jsTrimStr) ∧
      (fallbackHeadings texts).length ≤ 5 ∧
      (∃ ys, setDedup (headingArr texts) = fallbackHeadings texts ++ ys) := by
  intro texts
  have hmem_arr : ∀ t, t ∈ uniqueText texts → t ∈ headingArr texts := by
    intro t h
    have h1 : List.Sublist (uniqueText texts) (headingArr texts) := by
      have hs : List.Sublist ((headingArr texts).enum.filter
          (fun p => (headingArr texts).findIdx (fun x => x = p.2) = p.1))
          (headingArr texts).enum := List.filter_sublist _
      have h2 := List.Sublist.map Prod.snd hs
      rwa [List.enum_map_snd] at h2
    exact h1.subset h
  refine ⟨uniqueText_nodup texts, ?_, ?_, uniqueText_sublist texts, ?_, ?_⟩
  · intro t htne
    constructor
    · intro hmem
      have hin : t ∈ headingArr texts := by
        refine List.mem_filter.mpr ⟨hmem, by simpa using htne⟩
      have h1 : 0 < (uniqueText texts).count t :=
        List.count_pos_iff.mpr (uniqueText_mem texts t hin)
      have h2 : (uniqueText texts).count t ≤ 1 :=
        List.nodup_iff_count_le_one.mp (uniqueText_nodup texts) t
      omega
    · intro hmem
      refine List.count_eq_zero.mpr ?_
      intro hc
      exact hmem ((List.filter_sublist _).subset (hmem_arr t hc))
  · intro t h
    have := (List.mem_filter.mp (hmem_arr t h)).2
    simpa using this
  · simp only [fallbackHeadings]
    rw [List.length_take]
    exact Nat.min_le_left _ _
  · exact ⟨(setDedup (headingArr texts)).drop 5,
      (List.take_append_drop 5 _).symm⟩

/-- Witness for C8 amended: concrete headings with a duplicate, extra
whitespace and an empty entry yield each distinct trimmed heading exactly
once. -/
theorem C8_headings_deduplicated_witness :
    (uniqueText ["x", " x ", "", "y"]).count "x" = 1 :=
  ((C8_headings_deduplicated ["x", " x ", "", "y"]).2.1 "x" (by decide)).1 (by decide)

/-- Witness for C9: a page that never shows a challenge clears
immediately with zero wait; a page stuck on "Checking your browser
before accessing…" for the whole window times out and yields the 524
failure. -/
theorem C9_verification_poller_witness :
    waitForHumanVerification (fun _ => some "All good here") = ⟨true, 0⟩ ∧
    waitForHumanVerification
        (fun _ => some "Checking your browser before accessing example.com")
      = ⟨false, 46000⟩ :=
  ⟨((C9_verification_poller (fun _ => some "All good here")).1 0 "All good here"
      (by decide) (fun j hj t ht => absurd hj (by omega)) rfl (by decide)).1,
    ((C9_verification_poller
        (fun _ => some "Checking your browser before accessing example.com")).2
      (fun j _ => ⟨_, rfl, by decide⟩)).1⟩

/-- Members of a `takeWhile` satisfy the predicate and belong to the
list. -/
theorem mem_takeWhile_facts {p : Char → Bool} :
    ∀ {l : List Char} {a : Char}, a ∈ l.takeWhile p → p a = true ∧ a ∈ l := by
  intro l
  induction l with
  | nil => intro a h; simp [List.takeWhile] at h
  | cons c cs ih =>
    intro a h
    by_cases hc : p c
    · rw [List.takeWhile_cons_of_pos hc] at h
      rcases List.mem_cons.mp h with h | h
      · subst h; exact ⟨hc, List.mem_cons_self _ _⟩
      · obtain ⟨h1, h2⟩ := ih h
        exact ⟨h1, List.mem_cons_of_mem _ h2⟩
    · rw [List.takeWhile_cons_of_neg hc] at h
      simp at h

/-- Members of a `dropWhile` belong to the list. -/
theorem mem_dropWhile_mem {p : Char → Bool} :
    ∀ {l : List Char} {a : Char}, a ∈ l.dropWhile p → a ∈ l := by
  intro l
  induction l with
  | nil => intro a h; simp [List.dropWhile] at h
  | cons c cs ih =>
    intro a h
    by_cases hc : p c
    · rw [List.dropWhile_cons_of_pos hc] at h
      exact List.mem_cons_of_mem _ (ih h)
    · rwa [List.dropWhile_cons_of_neg hc] at h

/-- `splitAmp` pieces contain no ampersand. -/
theorem mem_splitAmp_no_amp : ∀ (q seg : List Char), seg ∈ splitAmp q → '&' ∉ seg := by
  intro q
  induction q with
  | nil =>
    intro seg h
    simp [splitAmp] at h
    subst h; simp
  | cons c cs ih =>
    intro seg h
    by_cases hc : c = '&'
    · subst hc
      simp only [splitAmp, if_pos rfl] at h
      rcases List.mem_cons.mp h with h | h
      · subst h; simp
      · exact ih seg h
    · rcases hsp : splitAmp cs with - | ⟨p, ps⟩
      · simp only [splitAmp, if_neg hc, hsp] at h
        rcases List.mem_cons.mp h with h | h
        · subst h
          simp only [List.mem_singleton, List.mem_cons, List.not_mem_nil, or_false]
          exact fun hx => hc hx.symm
        · simp at h
      · simp only [splitAmp, if_neg hc, hsp] at h
        rcases List.mem_cons.mp h with h | h
        · subst h
          intro hmem
          rcases List.mem_cons.mp hmem with h1 | h1
          · exact hc h1.symm
          · exact ih p (hsp ▸ List.mem_cons_self _ _) h1
        · exact ih seg (hsp ▸ List.mem_cons_of_mem _ h)

/-- An ampersand-free string splits into itself. -/
theorem splitAmp_of_no_amp : ∀ (a : List Char), '&' ∉ a → splitAmp a = [a] := by
  intro a
  induction a with
  | nil => intro _; rfl
  | cons c cs ih =>
    intro h
    have hc : c ≠ '&' := fun hx => h (hx ▸ List.mem_cons_self _ _)
    have hcs : '&' ∉ cs := fun hx => h (List.mem_cons_of_mem _ hx)
    simp only [splitAmp, if_neg hc, ih hcs]

/-- Splitting at the first ampersand after an ampersand-free head. -/
theorem splitAmp_append : ∀ (a b : List Char), '&' ∉ a →
    splitAmp (a ++ '&' :: b) = a :: splitAmp b := by
  intro a
  induction a with
  | nil => intro b _; simp [splitAmp]
  | cons c cs ih =>
    intro b h
    have hc : c ≠ '&' := fun hx => h (hx ▸ List.mem_cons_self _ _)
    have hcs : '&' ∉ cs := fun hx => h (List.mem_cons_of_mem _ hx)
    rw [List.cons_append]
    simp only [splitAmp, if_neg hc]
    rw [ih b hcs]

/-- `takeWhile` stops exactly at the marker character. -/
theorem takeWhile_ne_append (x : Char) : ∀ (k v : List Char), x ∉ k →
    (k ++ x :: v).takeWhile (notEqCh x) = k := by
  intro k
  induction k with
  | nil => intro v _; simp [List.takeWhile, notEqCh]
  | cons c cs ih =>
    intro v h
    have hc : c ≠ x := fun hx => h (hx ▸ List.mem_cons_self _ _)
    have hcs : x ∉ cs := fun hx => h (List.mem_cons_of_mem _ hx)
    simp only [List.cons_append]
    rw [List.takeWhile_cons_of_pos (by simpa [notEqCh] using hc)]
    rw [ih v hcs]

/-- `dropWhile` stops exactly at the marker character. -/
theorem dropWhile_ne_append (x : Char) : ∀ (k v : List Char), x ∉ k →
    (k ++ x :: v).dropWhile (notEqCh x) = x :: v := by
  intro k
  induction k with
  | nil => intro v _; simp [List.dropWhile, notEqCh]
  | cons c cs ih =>
    intro v h
    have hc : c ≠ x := fun hx => h (hx ▸ List.mem_cons_self _ _)
    have hcs : x ∉ cs := fun hx => h (List.mem_cons_of_mem _ hx)
    simp only [List.cons_append]
    rw [List.dropWhile_cons_of_pos (by simpa [notEqCh] using hc)]
    exact ih v hcs

/-- A serialised pair parses back to itself. -/
theorem segPair_roundtrip (k v : List Char) (hk : '=' ∉ k) :
    segPair (k ++ '=' :: v) = (k, v) := by
  simp only [segPair, takeWhile_ne_append '=' k v hk, dropWhile_ne_append '=' k v hk]

/-- Serialising a non-empty pair list never yields the empty string. -/
theorem serializePairs_ne_nil : ∀ ps : List (List Char × List Char),
    ps ≠ [] → serializePairs ps ≠ [] := by
  intro ps h
  match ps with
  | [p] => simp [serializePairs]
  | p :: q :: rest => simp [serializePairs]

/-- Round trip: serialising pairs whose names are free of `&` and `=`
and whose values are free of `&` parses back to the same pairs (model of
`URLSearchParams` re-serialisation). -/
theorem pairsOf_serializePairs : ∀ ps : List (List Char × List Char),
    (∀ p ∈ ps, '&' ∉ p.1 ∧ '&' ∉ p.2 ∧ '=' ∉ p.1) →
    pairsOf (serializePairs ps) = ps := by
  intro ps
  induction ps with
  | nil => intro _; rfl
  | cons p rest ih =>
    intro h
    obtain ⟨h1, h2, h3⟩ := h p (List.mem_cons_self _ _)
    have hfree : '&' ∉ p.1 ++ '=' :: p.2 := by
      intro hx
      rcases List.mem_append.mp hx with hx | hx
      · exact h1 hx
      · rcases List.mem_cons.mp hx with hx | hx
        · exact absurd hx.symm (by decide)
        · exact h2 hx
    have hne : (p.1 ++ '=' :: p.2).isEmpty = false := by
      simp [List.isEmpty_iff]
    match rest with
    | [] =>
      simp only [serializePairs, pairsOf]
      rw [splitAmp_of_no_amp _ hfree]
      simp only [List.filter_cons, hne, Bool.not_false, if_pos, List.filter_nil,
        List.map_cons, List.map_nil]
      rw [segPair_roundtrip p.1 p.2 h3]
    | q :: rest' =>
      have hrest : pairsOf (serializePairs (q :: rest')) = q :: rest' :=
        ih (fun x hx => h x (List.mem_cons_of_mem _ hx))
      have hassoc : serializePairs (p :: q :: rest')
          = (p.1 ++ '=' :: p.2) ++ '&' :: serializePairs (q :: rest') := by
        simp [serializePairs]
      rw [hassoc]
      simp only [pairsOf]
      rw [splitAmp_append _ _ hfree]
      simp only [List.filter_cons, hne, Bool.not_false, if_pos, List.map_cons]
      rw [segPair_roundtrip p.1 p.2 h3]
      simpa [pairsOf] using hrest

/-- The head of a `dropWhile` result falsifies the predicate. -/
theorem dropWhile_head_not {p : Char → Bool} :
    ∀ {l : List Char} {c : Char} {v : List Char},
      l.dropWhile p = c :: v → p c = false := by
  intro l
  induction l with
  | nil => intro c v h; simp [List.dropWhile] at h
  | cons a l ih =>
    intro c v h
    by_cases ha : p a
    · rw [List.dropWhile_cons_of_pos ha] at h
      exact ih h
    · rw [List.dropWhile_cons_of_neg ha] at h
      obtain ⟨h1, h2⟩ := List.cons.inj h
      subst h1
      simpa using ha

/-- First component of a parsed segment. -/
theorem segPair_fst (seg : List Char) :
    (segPair seg).1 = seg.takeWhile (notEqCh '=') := by
  rcases hd : seg.dropWhile (notEqCh '=') with - | ⟨c, v⟩
  · simp [segPair, hd]
  · by_cases hc : c = '='
    · subst hc; simp [segPair, hd]
    · have := dropWhile_head_not hd
      simp [notEqCh, hc] at this

/-- Pairs parsed from any query are free of `&` in name and value and of
`=` in the name. -/
theorem pairsOf_free (q : List Char) :
    ∀ p ∈ pairsOf q, '&' ∉ p.1 ∧ '&' ∉ p.2 ∧ '=' ∉ p.1 := by
  intro p hp
  simp only [pairsOf, List.mem_map] at hp
  obtain ⟨seg, hseg, hpair⟩ := hp
  have hsegmem : seg ∈ splitAmp q := (List.mem_filter.mp hseg).1
  have hamp : '&' ∉ seg := mem_splitAmp_no_amp q seg hsegmem
  subst hpair
  refine ⟨?_, ?_, ?_⟩
  · intro hx
    rw [segPair_fst] at hx
    exact hamp (mem_takeWhile_facts hx).2
  · intro hx
    have hv : '&' ∈ (segPair seg).2 := hx
    rcases hd : seg.dropWhile (notEqCh '=') with - | ⟨c, v⟩
    · simp only [segPair, hd] at hv
      simp at hv
    · by_cases hc : c = '='
      · subst hc
        simp only [segPair, hd] at hv
        have hmem : '&' ∈ seg.dropWhile (notEqCh '=') := by
          rw [hd]; exact List.mem_cons_of_mem _ hv
        exact hamp (mem_dropWhile_mem hmem)
      · have := dropWhile_head_not hd
        simp [notEqCh, hc] at this
  · intro hx
    rw [segPair_fst] at hx
    have := (mem_takeWhile_facts hx).1
    simp [notEqCh] at this

/-- Deleting each key of a list from a pair list, in order, keeps
exactly the pairs whose name is in none of the keys. -/
theorem foldl_delete_eq_filter :
    ∀ (ks : List (List Char)) (ps : List (List Char × List Char)),
      ks.foldl (fun acc k => acc.filter (fun p => p.1 ≠ k)) ps
        = ps.filter (fun p => decide (p.1 ∉ ks)) := by
  intro ks
  induction ks with
  | nil =>
    intro ps
    simp
  | cons k ks ih =>
    intro ps
    simp only [List.foldl_cons]
    rw [ih, List.filter_filter]
    apply List.filter_congr
    intro p _
    by_cases h1 : p.1 = k
    · simp [h1]
    · by_cases h2 : p.1 ∈ ks <;> simp [h1, h2]

/-- The keys collected by the tracker scan characterise exactly the
tracker pairs: deleting them keeps the non-tracker pairs. -/
theorem filter_not_collected (ps : List (List Char × List Char)) :
    ps.filter (fun p =>
        decide (p.1 ∉ (ps.filter (fun p => isTrackerKey p.1)).map Prod.fst))
      = ps.filter (fun p => !isTrackerKey p.1) := by
  apply List.filter_congr
  intro p hp
  by_cases h : isTrackerKey p.1
  · have hmem : p.1 ∈ (ps.filter (fun p => isTrackerKey p.1)).map Prod.fst :=
      List.mem_map_of_mem Prod.fst (List.mem_filter.mpr ⟨hp, by simpa using h⟩)
    simp [h, hmem]
  · have hnmem : p.1 ∉ (ps.filter (fun p => isTrackerKey p.1)).map Prod.fst := by
      intro hx
      obtain ⟨q, hq, hq1⟩ := List.mem_map.mp hx
      have := (List.mem_filter.mp hq).2
      rw [hq1] at this
      simp [h] at this
    simp [h, hnmem]

/-- Deleting the collected tracker keys equals filtering out tracker
pairs. -/
theorem deleteTrackers (ps : List (List Char × List Char)) :
    ((ps.filter (fun p => isTrackerKey p.1)).map Prod.fst).foldl
        (fun acc k => acc.filter (fun p => p.1 ≠ k)) ps
      = ps.filter (fun p => !isTrackerKey p.1) := by
  rw [foldl_delete_eq_filter, filter_not_collected]

/-- A URL with a protocol cannot be empty. -/
theorem hasProtocolB_ne_empty {raw : List Char} (hp : hasProtocolB raw = true) :
    raw.isEmpty = false := by
  cases raw
  · simp [hasProtocolB] at hp
  · rfl

/-- `sanitizeUrl` returns input with a non-http(s) scheme unchanged. -/
theorem sanitizeUrl_nonHttp (raw : List Char) (u : UrlRec)
    (hp : hasProtocolB raw = true) (hparse : parseAbs raw = some u)
    (hs : ¬ (u.scheme = "http".data ∨ u.scheme = "https".data)) :
    sanitizeUrlL raw = raw := by
  simp [sanitizeUrlL, hasProtocolB_ne_empty hp, hp, hparse, hs]

/-- `sanitizeUrl` returns unparseable input unchanged (the `catch`
branch of the source). -/
theorem sanitizeUrl_parseFail (raw : List Char)
    (hp : hasProtocolB raw = true) (hparse : parseAbs raw = none) :
    sanitizeUrlL raw = raw := by
  simp [sanitizeUrlL, hasProtocolB_ne_empty hp, hp, hparse]

/-- On an absolute http(s) URL, `sanitizeUrl` outputs the serialisation
of a URL with the same scheme, host and path, no fragment, and exactly
the non-tracker query pairs. -/
theorem sanitizeUrl_http (raw : List Char) (u : UrlRec)
    (hp : hasProtocolB raw = true) (hparse : parseAbs raw = some u)
    (hs : u.scheme = "http".data ∨ u.scheme = "https".data) :
    ∃ q', sanitizeUrlL raw
        = serializeUrl ⟨u.scheme, u.host, u.path, q', none⟩ ∧
      pairsOf (q'.getD [])
        = (pairsOf (u.query.getD [])).filter (fun p => !isTrackerKey p.1) := by
  have hemp := hasProtocolB_ne_empty hp
  simp only [sanitizeUrlL, hemp, Bool.false_eq_true, if_false, hp, if_true, hparse]
  simp only [hs, not_true_eq_false, and_false, if_false, true_and]
  set ps := pairsOf (u.query.getD []) with hps
  by_cases hkd : ((ps.filter (fun p => isTrackerKey p.1)).map Prod.fst).isEmpty
  · refine ⟨u.query, ?_, ?_⟩
    · simp [hkd]
    · have hnil : ps.filter (fun p => isTrackerKey p.1) = [] := by
        have := List.isEmpty_iff.mp hkd
        exact List.map_eq_nil_iff.mp this
      have hall : ∀ p ∈ ps, ¬ (isTrackerKey p.1 = true) := by
        intro p hmem
        exact List.filter_eq_nil_iff.mp hnil p hmem
      symm
      refine List.filter_eq_self.mpr ?_
      intro p hmem
      simpa using hall p hmem
  · set remaining := ((ps.filter (fun p => isTrackerKey p.1)).map Prod.fst).foldl
        (fun acc k => acc.filter (fun p => p.1 ≠ k)) ps with hrem
    have hremFilter : remaining = ps.filter (fun p => !isTrackerKey p.1) := by
      rw [hrem, deleteTrackers]
    by_cases hser : (serializePairs remaining).isEmpty
    · have hremNil : remaining = [] := by
        by_contra hne
        exact serializePairs_ne_nil remaining hne (List.isEmpty_iff.mp hser)
      refine ⟨none, ?_, ?_⟩
      · simp [hkd, hser]
      · simp [pairsOf, splitAmp, ← hremFilter, hremNil]
    · refine ⟨some (serializePairs remaining), ?_, ?_⟩
      · simp [hkd, hser]
      · have hfree : ∀ p ∈ remaining, '&' ∉ p.1 ∧ '&' ∉ p.2 ∧ '=' ∉ p.1 := by
          intro p hmem
          rw [hremFilter] at hmem
          exact pairsOf_free (u.query.getD []) p ((List.filter_sublist _).subset hmem)
        simp only [Option.getD_some]
        rw [pairsOf_serializePairs remaining hfree, hremFilter]

/-- C4: link sanitisation, applied to every link and image URL of the
converted Markdown, strips the URL fragment and removes, case
insensitively, every query parameter named exactly `gclid`, `fbclid` or
`igshid` and every parameter whose name starts with `utm_`, `ref`, `mc_`
or `smid`, while preserving all other query parameters; URLs with a
non-http(s) scheme and URLs that fail to parse are returned unchanged
(sanitisation is a total function, so it never throws). -/
theorem C4_link_sanitization :
    (∀ raw u, hasProtocolB raw = true → parseAbs raw = some u →
      ¬ (u.scheme = "http".data ∨ u.scheme = "https".data) →
      sanitizeUrlL raw = raw) ∧
    (∀ raw, hasProtocolB raw = true → parseAbs raw = none →
      sanitizeUrlL raw = raw) ∧
    (∀ raw u, hasProtocolB raw = true → parseAbs raw = some u →
      (u.scheme = "http".data ∨ u.scheme = "https".data) →
      ∃ q', sanitizeUrlL raw
          = serializeUrl ⟨u.scheme, u.host, u.path, q', none⟩ ∧
        pairsOf (q'.getD [])
          = (pairsOf (u.query.getD [])).filter (fun p => !isTrackerKey p.1)) ∧
    (isTrackerKey "UTM_Source".data = true ∧ isTrackerKey "gclid".data = true ∧
      isTrackerKey "FBCLID".data = true ∧ isTrackerKey "igshid".data = true ∧
      isTrackerKey "REFerrer".data = true ∧ isTrackerKey "mc_eid".data = true ∧
      isTrackerKey "smid".data = true ∧ isTrackerKey "page".data = false ∧
      isTrackerKey "id".data = false) ∧
    normalizeLinksL sanitizeUrlL
        "see [x](https://e.com/p?a=1&utm_source=s&gclid=g#f) and ![i](https://e.com/i.png?fbclid=z&b=2)".data
      = "see [x](https://e.com/p?a=1) and ![i](https://e.com/i.png?b=2)".data := by
  refine ⟨sanitizeUrl_nonHttp, sanitizeUrl_parseFail, sanitizeUrl_http, ?_, ?_⟩
  · refine ⟨by decide, by decide, by decide, by decide, by decide, by decide,
      by decide, by decide, by decide⟩
  · decide

/-- Witness for C4 at concrete URLs: a mailto link is untouched, a
malformed absolute URL is untouched, and a tracked http URL keeps
exactly its non-tracker parameter. -/
theorem C4_link_sanitization_witness :
    sanitizeUrlL "mailto:bob@example.com".data = "mailto:bob@example.com".data ∧
    sanitizeUrlL "http://".data = "http://".data ∧
    ∃ q', sanitizeUrlL "https://e.com/p?a=1&utm_source=s&gclid=g#f".data
        = serializeUrl ⟨"https".data, "e.com".data, "/p".data, q', none⟩ ∧
      pairsOf (q'.getD [])
        = (pairsOf ("a=1&utm_source=s&gclid=g".data)).filter
            (fun p => !isTrackerKey p.1) := by
  refine ⟨?_, ?_, ?_⟩
  · exact C4_link_sanitization.1 "mailto:bob@example.com".data
      ⟨"mailto".data, [], "bob@example.com".data, none, none⟩
      (by decide) (by decide) (by decide)
  · exact C4_link_sanitization.2.1 "http://".data (by decide) (by decide)
  · exact C4_link_sanitization.2.2.1 "https://e.com/p?a=1&utm_source=s&gclid=g#f".data
      ⟨"https".data, "e.com".data, "/p".data, some "a=1&utm_source=s&gclid=g".data,
        some "f".data⟩ (by decide) (by decide) (by decide)

/-- Forbidden patterns are non-empty. -/
theorem badPat_ne_nil {p : List Char} (h : BadPat p) : p ≠ [] := by
  rcases h with h | ⟨w, _, h⟩ <;> subst h <;> simp

/-- Forbidden patterns contain a newline. -/
theorem badPat_has_nl {p : List Char} (h : BadPat p) : '\n' ∈ p := by
  rcases h with h | ⟨w, _, h⟩ <;> subst h <;> simp

/-- Forbidden patterns consist of whitespace characters only. -/
theorem badPat_all_ws {p : List Char} (h : BadPat p) : ∀ c ∈ p, wsChar c = true := by
  rcases h with h | ⟨w, hw, h⟩ <;> subst h <;> intro c hc <;>
    simp only [List.mem_cons, List.not_mem_nil, or_false] at hc
  · rcases hc with rfl | rfl | rfl <;> decide
  · rcases hc with rfl | rfl
    · exact ((Bool.and_eq_true _ _).mp hw).1
    · decide

/-- Characters of a segment belong to the ambient list. -/
theorem seg_mem {p l : List Char} (h : Seg p l) : ∀ c ∈ p, c ∈ l := by
  obtain ⟨a, b, rfl⟩ := h
  intro c hc
  exact List.mem_append_right a (List.mem_append_left b hc)

/-- Segments compose. -/
theorem seg_trans {p q l : List Char} (h1 : Seg p q) (h2 : Seg q l) : Seg p l := by
  obtain ⟨a, b, rfl⟩ := h1
  obtain ⟨x, y, rfl⟩ := h2
  exact ⟨x ++ a, b ++ y, by simp⟩

/-- A `takeWhile` result is a segment. -/
theorem seg_takeWhile (p : Char → Bool) (l : List Char) : Seg (l.takeWhile p) l :=
  ⟨[], l.dropWhile p, by simp [List.takeWhile_append_dropWhile]⟩

/-- A `dropWhile` result is a segment. -/
theorem seg_dropWhile (p : Char → Bool) (l : List Char) : Seg (l.dropWhile p) l :=
  ⟨l.takeWhile p, [], by simp [List.takeWhile_append_dropWhile]⟩

/-- A suffix is a segment. -/
theorem seg_of_suffix {x l : List Char} (h : ∃ a, l = a ++ x) : Seg x l := by
  obtain ⟨a, rfl⟩ := h
  exact ⟨a, [], by simp⟩

/-- A prefix is a segment. -/
theorem seg_of_prefix {x l : List Char} (h : ∃ b, l = x ++ b) : Seg x l := by
  obtain ⟨b, rfl⟩ := h
  exact ⟨[], b, by simp⟩

/-- The empty list is tidy. -/
theorem tidy_nil : Tidy [] := by
  intro p hbad ⟨a, b, h⟩
  have := badPat_ne_nil hbad
  rcases List.append_eq_nil.mp h.symm with ⟨-, h2⟩
  rcases List.append_eq_nil.mp h2 with ⟨h3, -⟩
  exact this h3

/-- Tidiness restricts to segments. -/
theorem tidy_of_seg {q l : List Char} (hs : Seg q l) (ht : Tidy l) : Tidy q := by
  intro p hbad hseg
  exact ht p hbad (seg_trans hseg hs)

/-- A newline-free list is tidy. -/
theorem tidy_of_no_nl {l : List Char} (h : '\n' ∉ l) : Tidy l := by
  intro p hbad hseg
  exact h (seg_mem hseg '\n' (badPat_has_nl hbad))

/-- Decomposition of a segment of an append: it lies in the left part,
in the right part, or spans the boundary. -/
theorem seg_append_cases {p a b : List Char} (h : Seg p (a ++ b)) :
    Seg p a ∨ Seg p b ∨
      ∃ s t, p = s ++ t ∧ s ≠ [] ∧ t ≠ [] ∧ (∃ a0, a = a0 ++ s) ∧ (∃ b0, b = t ++ b0) := by
  obtain ⟨x, y, hxy⟩ := h
  rcases List.append_eq_append_iff.mp hxy with ⟨a', ha1, ha2⟩ | ⟨x', hx1, hx2⟩
  · exact Or.inr (Or.inl ⟨a', y, ha2⟩)
  · rcases List.append_eq_append_iff.mp hx2.symm with ⟨s, hs1, hs2⟩ | ⟨p', hp1, hp2⟩
    · rcases eq_or_ne x' [] with rfl | hx'
      · refine Or.inr (Or.inl ⟨[], y, ?_⟩)
        simp only [List.nil_append] at hs1
        simp [hs2, hs1]
      · rcases eq_or_ne s [] with rfl | hs
        · refine Or.inl ⟨x, [], ?_⟩
          rw [List.append_nil] at hs1
          simp [hx1, hs1]
        · exact Or.inr (Or.inr ⟨x', s, hs1, hx', hs, ⟨x, hx1⟩, ⟨y, hs2⟩⟩)
    · refine Or.inl ⟨x, p', ?_⟩
      simp [hx1, hp1]

/-- Decomposition of a segment of a cons. -/
theorem seg_cons_cases {p : List Char} {c : Char} {l : List Char}
    (h : Seg p (c :: l)) :
    (∃ p' t, p = c :: p' ∧ l = p' ++ t) ∨ Seg p l := by
  obtain ⟨x, y, hxy⟩ := h
  cases x with
  | nil =>
    cases p with
    | nil => exact Or.inr ⟨[], l, by simp⟩
    | cons ph pt =>
      simp only [List.nil_append, List.cons_append, List.cons.injEq] at hxy
      exact Or.inl ⟨pt, y, by rw [hxy.1], hxy.2⟩
  | cons xh xt =>
    simp only [List.cons_append, List.cons.injEq] at hxy
    exact Or.inr ⟨xt, y, hxy.2⟩

/-- Two decompositions of a list as `init ++ [last]` share the last
element. -/
theorem lastEq {a b : List Char} {c d : Char} (h : a ++ [c] = b ++ [d]) : c = d := by
  have h1 : (a ++ [c]).getLast? = some c := List.getLast?_concat a
  rw [h, List.getLast?_concat] at h1
  exact (Option.some.inj h1).symm

/-- Tidiness is preserved by appending after a solid last character. -/
theorem tidy_append_left {a b : List Char}
    (ha : Tidy a) (hb : Tidy b) (he : EndsSolid a) : Tidy (a ++ b) := by
  intro p hbad hseg
  rcases seg_append_cases hseg with h | h | ⟨s, t, hp, hs, ht, ⟨a0, ha0⟩, ⟨b0, hb0⟩⟩
  · exact ha p hbad h
  · exact hb p hbad h
  · obtain ⟨e, c, hec, hcw⟩ := he
    rcases List.eq_nil_or_concat s with rfl | ⟨s0, sl, rfl⟩
    · exact hs rfl
    · rw [List.concat_eq_append] at hp ha0
      have h1 : a.getLast? = some c := by
        rw [hec]
        exact List.getLast?_concat e
      have h2 : a.getLast? = some sl := by
        rw [ha0, ← List.append_assoc]
        exact List.getLast?_concat _
      have hceq : sl = c := Option.some.inj (h2.symm.trans h1)
      have hmem : sl ∈ p := by
        rw [hp]
        exact List.mem_append_left t (List.mem_append_right s0 (by simp))
      have := badPat_all_ws hbad sl hmem
      rw [hceq, hcw] at this
      exact Bool.false_ne_true this

/-- Tidiness is preserved by appending before a solid first character. -/
theorem tidy_append_right {a b : List Char}
    (ha : Tidy a) (hb : Tidy b) (hs : StartsSolid b) : Tidy (a ++ b) := by
  intro p hbad hseg
  rcases seg_append_cases hseg with h | h | ⟨s, t, hp, hsne, htne, ⟨a0, ha0⟩, ⟨b0, hb0⟩⟩
  · exact ha p hbad h
  · exact hb p hbad h
  · obtain ⟨c, bt, hcb, hcw⟩ := hs
    cases t with
    | nil => exact htne rfl
    | cons t0 trest =>
      have hceq : t0 = c := by
        rw [hcb] at hb0
        exact (List.cons.inj hb0.symm).1
      have hmem : t0 ∈ p := by
        rw [hp]
        exact List.mem_append_right s (by simp)
      have := badPat_all_ws hbad t0 hmem
      rw [hceq, hcw] at this
      exact Bool.false_ne_true this

/-- Tidiness is preserved by prepending a solid character. -/
theorem tidy_cons_solid {c : Char} {l : List Char}
    (hc : wsChar c = false) (hl : Tidy l) : Tidy (c :: l) := by
  have h1 : Tidy [c] := by
    refine tidy_of_no_nl ?_
    intro hmem
    simp only [List.mem_singleton] at hmem
    rw [← hmem] at hc
    exact absurd hc (by decide)
  exact tidy_append_left h1 hl ⟨[], c, rfl, hc⟩

/-- A list is its trimmed form plus trailing whitespace. -/
theorem trimEndL_decomp (l : List Char) :
    l = trimEndL l ++ (l.reverse.takeWhile wsChar).reverse := by
  have h := List.takeWhile_append_dropWhile wsChar l.reverse
  have h2 := congrArg List.reverse h
  rw [List.reverse_append, List.reverse_reverse] at h2
  rw [trimEndL]
  exact h2.symm

/-- The trimmed form is a segment. -/
theorem seg_trimEndL (l : List Char) : Seg (trimEndL l) l :=
  seg_of_prefix ⟨_, trimEndL_decomp l⟩

/-- The fully trimmed form is a segment. -/
theorem seg_jsTrimL (l : List Char) : Seg (jsTrimL l) l :=
  seg_trans (seg_trimEndL _) (seg_dropWhile _ _)

/-- A non-empty trimmed-end list ends in a non-whitespace character. -/
theorem trimEndL_endsSolid (l : List Char) :
    trimEndL l = [] ∨ EndsSolid (trimEndL l) := by
  rcases hd : l.reverse.dropWhile wsChar with - | ⟨c, rest⟩
  · left
    rw [trimEndL, hd]
    rfl
  · right
    refine ⟨rest.reverse, c, ?_, dropWhile_head_not hd⟩
    rw [trimEndL, hd]
    simp

/-- A non-empty fully trimmed list ends in a non-whitespace character. -/
theorem jsTrimL_endsSolid (l : List Char) :
    jsTrimL l = [] ∨ EndsSolid (jsTrimL l) :=
  trimEndL_endsSolid _

/-- A non-empty fully trimmed list starts with a non-whitespace
character. -/
theorem jsTrimL_startsSolid (l : List Char) :
    jsTrimL l = [] ∨ StartsSolid (jsTrimL l) := by
  rw [jsTrimL]
  rcases hd : l.dropWhile wsChar with - | ⟨c, xs⟩
  · left
    rfl
  · have hcw : wsChar c = false := dropWhile_head_not hd
    rcases he : trimEndL (c :: xs) with - | ⟨d, t⟩
    · exact Or.inl rfl
    · right
      have hdecomp := trimEndL_decomp (c :: xs)
      rw [he] at hdecomp
      have hcd : d = c := by
        rw [List.cons_append] at hdecomp
        exact ((List.cons.inj hdecomp).1).symm
      exact ⟨c, t, by rw [hcd], hcw⟩

/-- First newline-run length of a cons. -/
theorem leadNl_cons (c : Char) (l : List Char) :
    leadNl (c :: l) = if c = '\n' then leadNl l + 1 else 0 := rfl

/-- A positive leading newline run starts with a newline. -/
theorem leadNl_one {l : List Char} (h : 1 ≤ leadNl l) : ∃ t, l = '\n' :: t := by
  cases l with
  | nil => simp [leadNl] at h
  | cons c cs =>
    by_cases hc : c = '\n'
    · exact ⟨cs, by rw [hc]⟩
    · rw [leadNl_cons, if_neg hc] at h
      omega

/-- A leading newline run of length two starts with two newlines. -/
theorem leadNl_two {l : List Char} (h : 2 ≤ leadNl l) :
    ∃ t, l = '\n' :: '\n' :: t := by
  obtain ⟨t, rfl⟩ := leadNl_one (by omega : 1 ≤ leadNl l)
  rw [leadNl_cons, if_pos rfl] at h
  obtain ⟨t', rfl⟩ := leadNl_one (by omega : 1 ≤ leadNl t)
  exact ⟨t', rfl⟩

/-- The generic replacement scanner preserves tidiness and never
lengthens the leading newline run, provided every replacement the
matcher emits is tidy, solid at both ends, and leaves a suffix of the
input to continue on. -/
theorem scanRep_tidy (m : Matcher) (nf : Char → Bool)
    (hm : ∀ st l r rest st', m st l = some (r, rest, st') → Tidy l →
      Tidy r ∧ StartsSolid r ∧ EndsSolid r ∧ ∃ x, l = x ++ rest) :
    ∀ fuel st l, Tidy l →
      Tidy (scanRep m nf fuel st l) ∧ leadNl (scanRep m nf fuel st l) ≤ leadNl l := by
  intro fuel
  induction fuel with
  | zero => intro st l hl; exact ⟨hl, Nat.le_refl _⟩
  | succ fuel ih =>
    intro st l hl
    cases l with
    | nil =>
      constructor
      · exact tidy_nil
      · exact Nat.le_refl _
    | cons c cs =>
      have hcs : Tidy cs := tidy_of_seg ⟨[c], [], by simp⟩ hl
      cases hmatch : m st (c :: cs) with
      | some res =>
        obtain ⟨r, rest, st'⟩ := res
        obtain ⟨hr, hrs, hre, x, hx⟩ := hm st (c :: cs) r rest st' hmatch hl
        have hrest : Tidy rest := tidy_of_seg (seg_of_suffix ⟨x, hx⟩) hl
        obtain ⟨ht, hlead⟩ := ih st' rest hrest
        constructor
        · simp only [scanRep, hmatch]
          exact tidy_append_left hr ht hre
        · simp only [scanRep, hmatch]
          obtain ⟨ch, t, hr2, hcw⟩ := hrs
          have hcnl : ch ≠ '\n' := by
            intro hx'
            rw [hx'] at hcw
            exact absurd hcw (by decide)
          rw [hr2, List.cons_append, leadNl_cons, if_neg hcnl]
          exact Nat.zero_le _
      | none =>
        obtain ⟨ht, hlead⟩ := ih (nf c) cs hcs
        constructor
        · simp only [scanRep, hmatch]
          intro p hbad hseg
          rcases seg_cons_cases hseg with ⟨p', t, hp, hout⟩ | hseg'
          · rcases hbad with hb | ⟨w, hw, hb⟩
            · have hc' : c = '\n' ∧ p' = ['\n', '\n'] := by
                rw [hb] at hp
                exact ⟨(List.cons.inj hp).1.symm, (List.cons.inj hp).2.symm⟩
              have hlead2 : 2 ≤ leadNl (scanRep m nf fuel (nf c) cs) := by
                rw [hout, hc'.2]
                simp [leadNl_cons]
              obtain ⟨t', hcs'⟩ := leadNl_two (Nat.le_trans hlead2 hlead)
              refine hl p (Or.inl hb) ?_
              rw [hb]
              exact ⟨[], t', by simp [hcs', hc'.1]⟩
            · have hc' : c = w ∧ p' = ['\n'] := by
                rw [hb] at hp
                exact ⟨(List.cons.inj hp).1.symm, (List.cons.inj hp).2.symm⟩
              have hlead1 : 1 ≤ leadNl (scanRep m nf fuel (nf c) cs) := by
                rw [hout, hc'.2]
                simp [leadNl_cons]
              obtain ⟨t', hcs'⟩ := leadNl_one (Nat.le_trans hlead1 hlead)
              refine hl p (Or.inr ⟨w, hw, hb⟩) ?_
              rw [hb]
              exact ⟨[], t', by simp [hcs', hc'.1]⟩
          · exact ht p hbad hseg'
        · simp only [scanRep, hmatch]
          by_cases hc : c = '\n'
          · rw [leadNl_cons, leadNl_cons, if_pos hc, if_pos hc]
            omega
          · rw [leadNl_cons, if_neg hc]
            exact Nat.zero_le _

/-- Lowercasing never produces a newline from a non-newline. -/
theorem lowerChar_ne_nl {c : Char} (h : c ≠ '\n') : lowerChar c ≠ '\n' := by
  rw [lowerChar]
  split
  · intro he
    rename_i hr
    have hA : (65 : Nat) ≤ c.toNat := hr.1
    have hZ : c.toNat ≤ 90 := hr.2
    have hv : (c.toNat + 32).isValidChar := Or.inl (by omega)
    have htn : (Char.ofNat (c.toNat + 32)).toNat = c.toNat + 32 := by
      rw [Char.ofNat, dif_pos hv]
      rfl
    have hlen := congrArg Char.toNat he
    rw [htn] at hlen
    have h10 : Char.toNat '\n' = 10 := rfl
    rw [h10] at hlen
    omega
  · exact h

/-- Mapping `lowerChar` over a newline-free list keeps it newline-free. -/
theorem map_lower_no_nl {l : List Char} (h : '\n' ∉ l) : '\n' ∉ l.map lowerChar := by
  intro hmem
  obtain ⟨c, hc, hlc⟩ := List.mem_map.mp hmem
  have hcne : c ≠ '\n' := fun he => h (he ▸ hc)
  exact lowerChar_ne_nl hcne hlc

/-- WHATWG input preprocessing removes every newline. -/
theorem stripCtl_no_nl (l : List Char) : '\n' ∉ stripCtl l := by
  intro hmem
  rw [stripCtl] at hmem
  have := (List.mem_filter.mp hmem).2
  simp at this

/-- `stripPlaceholder` introduces no newline. -/
theorem stripPlaceholder_no_nl {l : List Char} (h : '\n' ∉ l) :
    '\n' ∉ stripPlaceholder l := by
  rw [stripPlaceholder]
  split
  · intro hmem
    exact h (List.mem_of_mem_drop hmem)
  · exact h

/-- Splitting a newline-free tail gives newline-free path, query and
fragment. -/
theorem splitPQF_no_nl {l : List Char} (h : '\n' ∉ l) :
    '\n' ∉ (splitPQF l).1 ∧
    (∀ q, (splitPQF l).2.1 = some q → '\n' ∉ q) ∧
    (∀ f, (splitPQF l).2.2 = some f → '\n' ∉ f) := by
  simp only [splitPQF]
  split
  · rename_i r heq
    have hr : '\n' ∉ r := by
      intro hx
      exact h (mem_dropWhile_mem (heq ▸ List.mem_cons_of_mem _ hx))
    split
    · rename_i f heq2
      refine ⟨?_, ?_, ?_⟩
      · intro hx
        exact h (mem_takeWhile_facts hx).2
      · intro q hq hx
        obtain rfl := Option.some.inj hq
        exact hr (mem_takeWhile_facts hx).2
      · intro f0 hf hx
        obtain rfl := Option.some.inj hf
        exact hr (mem_dropWhile_mem (heq2 ▸ List.mem_cons_of_mem _ hx))
    · refine ⟨?_, ?_, ?_⟩
      · intro hx
        exact h (mem_takeWhile_facts hx).2
      · intro q hq hx
        obtain rfl := Option.some.inj hq
        exact hr (mem_takeWhile_facts hx).2
      · intro f0 hf
        exact absurd hf (by simp)
  · rename_i f heq
    refine ⟨?_, ?_, ?_⟩
    · intro hx
      exact h (mem_takeWhile_facts hx).2
    · intro q hq
      exact absurd hq (by simp)
    · intro f0 hf hx
      obtain rfl := Option.some.inj hf
      exact h (mem_dropWhile_mem (heq ▸ List.mem_cons_of_mem _ hx))
  · refine ⟨?_, ?_, ?_⟩
    · intro hx
      exact h (mem_takeWhile_facts hx).2
    · intro q hq
      exact absurd hq (by simp)
    · intro f0 hf
      exact absurd hf (by simp)

/-- Parsing the rest after a special scheme keeps every field
newline-free. -/
theorem parseSpecialRest_no_nl {scheme rest : List Char} {u : UrlRec}
    (hs : '\n' ∉ scheme) (hr : '\n' ∉ rest)
    (h : parseSpecialRest scheme rest = some u) : UrlNoNl u := by
  simp only [parseSpecialRest] at h
  split at h
  · exact absurd h (by simp)
  · have hr2 : '\n' ∉ rest.dropWhile (fun c => c = '/') := by
      intro hx
      exact hr (mem_dropWhile_mem hx)
    obtain rfl := Option.some.inj h
    have hsp := @splitPQF_no_nl
      ((rest.dropWhile (fun c => c = '/')).dropWhile
        (fun c => c ≠ '/' ∧ c ≠ '?' ∧ c ≠ '#'))
      (fun hx => hr2 (mem_dropWhile_mem hx))
    refine ⟨hs, ?_, hsp.1, hsp.2.1, hsp.2.2⟩
    refine map_lower_no_nl ?_
    intro hx
    exact hr2 (mem_takeWhile_facts hx).2

/-- `parseAbs` produces only newline-free fields. -/
theorem parseAbs_no_nl {raw : List Char} {u : UrlRec}
    (h : parseAbs raw = some u) : UrlNoNl u := by
  simp only [parseAbs] at h
  split at h
  · exact absurd h (by simp)
  · rename_i c r heq
    have hcr : '\n' ∉ c :: r := heq ▸ stripCtl_no_nl raw
    have hrr : '\n' ∉ r := fun hx => hcr (List.mem_cons_of_mem _ hx)
    split at h
    · split at h
      · rename_i rest heq2
        have hrest : '\n' ∉ rest := by
          intro hx
          exact hrr (mem_dropWhile_mem (heq2 ▸ List.mem_cons_of_mem _ hx))
        have hscheme : '\n' ∉ (c :: r.takeWhile schemeChar).map lowerChar := by
          refine map_lower_no_nl ?_
          intro hx
          rcases List.mem_cons.mp hx with hx | hx
          · exact hcr (hx ▸ List.mem_cons_self _ _)
          · exact hrr (mem_takeWhile_facts hx).2
        split at h
        · exact parseSpecialRest_no_nl hscheme hrest h
        · obtain rfl := Option.some.inj h
          have hsp := splitPQF_no_nl hrest
          exact ⟨hscheme, by simp, hsp.1, hsp.2.1, hsp.2.2⟩
      · exact absurd h (by simp)
    · exact absurd h (by simp)

/-- `parseRel` produces only newline-free fields. -/
theorem parseRel_no_nl (raw : List Char) : UrlNoNl (parseRel raw) := by
  have hhttps : '\n' ∉ "https".data := by decide
  have hph : '\n' ∉ placeholderHost := by decide
  simp only [parseRel]
  split
  · rename_i r heq
    have hr : '\n' ∉ '/' :: '/' :: r := heq ▸ stripCtl_no_nl raw
    split
    · rename_i u heq2
      exact parseSpecialRest_no_nl hhttps hr heq2
    · exact ⟨hhttps, hph, by simp, by simp, by simp⟩
  · split
    · rename_i f heq
      have hs : '\n' ∉ '#' :: f := heq ▸ stripCtl_no_nl raw
      refine ⟨hhttps, hph, by simp, by simp, ?_⟩
      intro f0 hf hx
      obtain rfl := Option.some.inj hf
      exact hs (List.mem_cons_of_mem _ hx)
    · rename_i r heq
      have hs : '\n' ∉ '?' :: r := heq ▸ stripCtl_no_nl raw
      have hr : '\n' ∉ r := fun hx => hs (List.mem_cons_of_mem _ hx)
      refine ⟨hhttps, hph, by simp, ?_, ?_⟩
      · intro q hq hx
        obtain rfl := Option.some.inj hq
        exact hr (mem_takeWhile_facts hx).2
      · intro f hf
        split at hf
        · rename_i f2 heq2
          obtain rfl := Option.some.inj hf
          intro hx
          exact hr (mem_dropWhile_mem (heq2 ▸ List.mem_cons_of_mem _ hx))
        · exact absurd hf (by simp)
    · have hsp := splitPQF_no_nl (stripCtl_no_nl raw)
      refine ⟨hhttps, hph, ?_, hsp.2.1, hsp.2.2⟩
      split
      · rename_i t heq1
        rw [heq1]
        rw [heq1] at hsp
        exact hsp.1
      · intro hx
        rcases List.mem_cons.mp hx with hx | hx
        · exact absurd hx (by decide)
        · exact hsp.1 hx

/-- Serialising a URL with newline-free fields gives a newline-free
string. -/
theorem serializeUrl_no_nl {u : UrlRec} (h : UrlNoNl u) :
    '\n' ∉ serializeUrl u := by
  obtain ⟨hs, hh, hp, hq, hf⟩ := h
  intro hmem
  rw [serializeUrl] at hmem
  simp only [List.mem_append, List.mem_cons] at hmem
  rcases hmem with ((((hx | hx) | hx) | hx) | hx)
  · exact hs hx
  · rcases hx with hx | hx | hx | hx
    · exact absurd hx (by decide)
    · exact absurd hx (by decide)
    · exact absurd hx (by decide)
    · exact hh hx
  · split at hx
    · rcases List.mem_cons.mp hx with hx | hx
      · exact absurd hx (by decide)
      · exact absurd hx (by simp)
    · exact hp hx
  · rcases hqe : u.query with - | q
    · rw [hqe] at hx
      simp at hx
    · rw [hqe] at hx
      rcases List.mem_cons.mp hx with hx | hx
      · exact absurd hx (by decide)
      · exact hq q hqe hx
  · rcases hfe : u.frag with - | f
    · rw [hfe] at hx
      simp at hx
    · rw [hfe] at hx
      rcases List.mem_cons.mp hx with hx | hx
      · exact absurd hx (by decide)
      · exact hf f hfe hx

/-- Every character of a `splitAmp` piece comes from the query. -/
theorem splitAmp_mem : ∀ (q seg : List Char), seg ∈ splitAmp q →
    ∀ c ∈ seg, c ∈ q := by
  intro q
  induction q with
  | nil =>
    intro seg h
    simp [splitAmp] at h
    subst h
    simp
  | cons a cs ih =>
    intro seg h c hc
    by_cases ha : a = '&'
    · subst ha
      simp only [splitAmp, if_pos rfl] at h
      rcases List.mem_cons.mp h with h | h
      · subst h; simp at hc
      · exact List.mem_cons_of_mem _ (ih seg h c hc)
    · rcases hsp : splitAmp cs with - | ⟨p, ps⟩
      · simp only [splitAmp, if_neg ha, hsp] at h
        rcases List.mem_cons.mp h with h | h
        · subst h
          rcases List.mem_cons.mp hc with h1 | h1
          · exact h1 ▸ List.mem_cons_self _ _
          · simp at h1
        · simp at h
      · simp only [splitAmp, if_neg ha, hsp] at h
        rcases List.mem_cons.mp h with h | h
        · subst h
          rcases List.mem_cons.mp hc with h1 | h1
          · exact h1 ▸ List.mem_cons_self _ _
          · exact List.mem_cons_of_mem _
              (ih p (hsp ▸ List.mem_cons_self _ _) c h1)
        · exact List.mem_cons_of_mem _
            (ih seg (hsp ▸ List.mem_cons_of_mem _ h) c hc)

/-- Pairs parsed from a newline-free query are newline-free. -/
theorem pairsOf_no_nl {q : List Char} (h : '\n' ∉ q) :
    ∀ p ∈ pairsOf q, '\n' ∉ p.1 ∧ '\n' ∉ p.2 := by
  intro p hp
  simp only [pairsOf, List.mem_map] at hp
  obtain ⟨seg, hseg, hpair⟩ := hp
  have hsegmem : seg ∈ splitAmp q := (List.mem_filter.mp hseg).1
  have hsegnl : '\n' ∉ seg := fun hx => h (splitAmp_mem q seg hsegmem '\n' hx)
  subst hpair
  constructor
  · intro hx
    rw [segPair_fst] at hx
    exact hsegnl (mem_takeWhile_facts hx).2
  · intro hx
    have hv : '\n' ∈ (segPair seg).2 := hx
    rcases hd : seg.dropWhile (notEqCh '=') with - | ⟨c, v⟩
    · simp only [segPair, hd] at hv
      simp at hv
    · by_cases hc : c = '='
      · subst hc
        simp only [segPair, hd] at hv
        have hmem : '\n' ∈ seg.dropWhile (notEqCh '=') := by
          rw [hd]
          exact List.mem_cons_of_mem _ hv
        exact hsegnl (mem_dropWhile_mem hmem)
      · have := dropWhile_head_not hd
        simp [notEqCh, hc] at this

/-- Serialising newline-free pairs gives a newline-free string. -/
theorem serializePairs_no_nl : ∀ ps : List (List Char × List Char),
    (∀ p ∈ ps, '\n' ∉ p.1 ∧ '\n' ∉ p.2) → '\n' ∉ serializePairs ps := by
  intro ps
  induction ps with
  | nil => intro _; simp [serializePairs]
  | cons p rest ih =>
    intro h
    cases rest with
    | nil =>
      have hp := h p (List.mem_cons_self _ _)
      intro hx
      simp only [serializePairs, List.mem_append, List.mem_cons] at hx
      rcases hx with hx | hx | hx
      · exact hp.1 hx
      · exact absurd hx (by decide)
      · exact hp.2 hx
    | cons q rest2 =>
      have hp := h p (List.mem_cons_self _ _)
      have hrest := ih (fun x hx => h x (List.mem_cons_of_mem _ hx))
      intro hx
      simp only [serializePairs, List.mem_append, List.mem_cons] at hx
      rcases hx with (hx | hx | hx) | hx | hx
      · exact hp.1 hx
      · exact absurd hx (by decide)
      · exact hp.2 hx
      · exact absurd hx (by decide)
      · exact hrest hx

/-- `sanitizeUrl` either returns its input unchanged or returns a
newline-free string: the pass-through branches (falsy input, non-http(s)
scheme, parse failure) are identities, and every serialising branch
prints fields that went through the control-character stripping of the
URL parser. -/
theorem sanitizeUrlL_id_or_no_nl (raw : List Char) :
    sanitizeUrlL raw = raw ∨ '\n' ∉ sanitizeUrlL raw := by
  by_cases hemp : raw.isEmpty
  · left
    simp [sanitizeUrlL, hemp]
  · have hempf : raw.isEmpty = false := by
      simpa using hemp
    by_cases hp : hasProtocolB raw
    · rcases hparse : parseAbs raw with - | u
      · left
        exact sanitizeUrl_parseFail raw hp hparse
      · by_cases hs : (u.scheme = "http".data ∨ u.scheme = "https".data)
        · right
          have hnn := parseAbs_no_nl hparse
          simp only [sanitizeUrlL, hempf, Bool.false_eq_true, if_false, hp,
            if_true, hparse, hs, not_true_eq_false, and_false]
          set ps := pairsOf (u.query.getD []) with hps
          have hqnl : '\n' ∉ u.query.getD [] := by
            rcases hqe : u.query with - | q
            · simp
            · simpa using hnn.2.2.2.1 q hqe
          have hpsnl : ∀ p ∈ ps, '\n' ∉ p.1 ∧ '\n' ∉ p.2 := by
            intro p hmem
            exact pairsOf_no_nl hqnl p hmem
          split
          · refine serializeUrl_no_nl ⟨hnn.1, hnn.2.1, hnn.2.2.1, ?_, by simp⟩
            intro q hq
            exact hnn.2.2.2.1 q hq
          · refine serializeUrl_no_nl ⟨hnn.1, hnn.2.1, hnn.2.2.1, ?_, by simp⟩
            intro q hq
            split at hq
            · exact absurd hq (by simp)
            · obtain rfl := Option.some.inj hq
              refine serializePairs_no_nl _ ?_
              intro x hx
              refine hpsnl x ?_
              have hsub : ∀ y ∈ (((ps.filter (fun p => isTrackerKey p.1)).map
                  Prod.fst).foldl (fun acc k => acc.filter (fun p => p.1 ≠ k)) ps),
                  y ∈ ps := by
                rw [foldl_delete_eq_filter]
                intro y hy
                exact (List.filter_sublist _).subset hy
              exact hsub x hx
        · left
          exact sanitizeUrl_nonHttp raw u hp hparse hs
    · right
      have hpf : hasProtocolB raw = false := by simpa using hp
      have hnn := parseRel_no_nl raw
      simp only [sanitizeUrlL, hempf, Bool.false_eq_true, if_false, hpf,
        Bool.false_eq_true, false_and, if_false]
      set u := parseRel raw with hu
      set ps := pairsOf (u.query.getD []) with hps
      have hqnl : '\n' ∉ u.query.getD [] := by
        rcases hqe : u.query with - | q
        · simp
        · simpa using hnn.2.2.2.1 q hqe
      have hpsnl : ∀ p ∈ ps, '\n' ∉ p.1 ∧ '\n' ∉ p.2 := by
        intro p hmem
        exact pairsOf_no_nl hqnl p hmem
      split
      · refine stripPlaceholder_no_nl
          (serializeUrl_no_nl ⟨hnn.1, hnn.2.1, hnn.2.2.1, ?_, by simp⟩)
        intro q hq
        exact hnn.2.2.2.1 q hq
      · refine stripPlaceholder_no_nl
          (serializeUrl_no_nl ⟨hnn.1, hnn.2.1, hnn.2.2.1, ?_, by simp⟩)
        intro q hq
        split at hq
        · exact absurd hq (by simp)
        · obtain rfl := Option.some.inj hq
          refine serializePairs_no_nl _ ?_
          intro x hx
          refine hpsnl x ?_
          have hsub : ∀ y ∈ (((ps.filter (fun p => isTrackerKey p.1)).map
              Prod.fst).foldl (fun acc k => acc.filter (fun p => p.1 ≠ k)) ps),
              y ∈ ps := by
            rw [foldl_delete_eq_filter]
            intro y hy
            exact (List.filter_sublist _).subset hy
          exact hsub x hx

/-- `sanitizeUrl` preserves tidiness: either it returns the (tidy) input
or a newline-free string, which is tidy because every forbidden pattern
contains a newline. -/
theorem sanitizeUrl_tidy {u : List Char} (hu : Tidy u) :
    Tidy (sanitizeUrlL u) := by
  rcases sanitizeUrlL_id_or_no_nl u with h | h
  · rw [h]
    exact hu
  · exact tidy_of_no_nl h

/-- A `dropWhile` equation yields the take/drop decomposition of the
list. -/
theorem takeWhile_dropWhile_decomp {p : Char → Bool} {l d : List Char}
    (h : l.dropWhile p = d) : l = l.takeWhile p ++ d := by
  rw [← h, List.takeWhile_append_dropWhile]

/-- Having a given suffix survives consing a character in front. -/
theorem suffix_cons {c : Char} {l m : List Char} (h : ∃ x, l = x ++ m) :
    ∃ x, c :: l = x ++ m := by
  obtain ⟨x, hx⟩ := h
  exact ⟨c :: x, by rw [hx]; rfl⟩

/-- The has-suffix relation is transitive. -/
theorem suffix_trans {l m n : List Char} (h1 : ∃ x, l = x ++ m)
    (h2 : ∃ y, m = y ++ n) : ∃ z, l = z ++ n := by
  obtain ⟨x, hx⟩ := h1
  obtain ⟨y, hy⟩ := h2
  exact ⟨x ++ y, by rw [hx, hy, List.append_assoc]⟩

/-- A list starting solid keeps starting solid under appending. -/
theorem startsSolid_append {a b : List Char} (h : StartsSolid a) :
    StartsSolid (a ++ b) := by
  obtain ⟨c, t, he, hc⟩ := h
  exact ⟨c, t ++ b, by rw [he]; rfl, hc⟩

/-- The link matcher (with the installed URL sanitiser) emits a tidy
replacement, solid at both ends, and continues on a suffix of its
input. -/
theorem mLink_spec : ∀ (st : Bool) (l r rest : List Char) (st' : Bool),
    mLink sanitizeUrlL st l = some (r, rest, st') → Tidy l →
    Tidy r ∧ StartsSolid r ∧ EndsSolid r ∧ ∃ x, l = x ++ rest := by
  intro st l r rest st' h hl
  simp only [mLink] at h
  split at h
  · rename_i r0
    split at h
    · simp at h
    · rename_i hne1
      split at h
      · rename_i r2 heq2
        split at h
        · simp at h
        · rename_i hne2
          split at h
          · rename_i rest0 heq3
            have h' := Option.some.inj h
            rw [Prod.mk.injEq, Prod.mk.injEq] at h'
            obtain ⟨rfl, rfl, rfl⟩ := h'
            have hd2 := takeWhile_dropWhile_decomp heq2
            have hd3 := takeWhile_dropWhile_decomp heq3
            have hsegr0 : Seg r0 ('[' :: r0) := ⟨['['], [], by simp⟩
            have hsuf1 : ∃ x, r0 = x ++ r2 :=
              suffix_trans ⟨_, hd2⟩
                (⟨[']', '('], rfl⟩ : ∃ y, ']' :: '(' :: r2 = y ++ r2)
            have hsegr2 : Seg r2 ('[' :: r0) :=
              seg_of_suffix (suffix_cons hsuf1)
            have hjt : Tidy (jsTrimL (r0.takeWhile fun c => decide (c ≠ ']'))) :=
              tidy_of_seg (seg_trans (seg_jsTrimL _)
                (seg_trans (seg_takeWhile _ _) hsegr0)) hl
            have hfu : Tidy (sanitizeUrlL (r2.takeWhile fun c => decide (c ≠ ')'))) :=
              sanitizeUrl_tidy (tidy_of_seg
                (seg_trans (seg_takeWhile _ _) hsegr2) hl)
            have hrest3 : ∃ z, r2 = z ++ rest0 :=
              suffix_trans ⟨_, hd3⟩
                (⟨[')'], rfl⟩ : ∃ y, ')' :: rest0 = y ++ rest0)
            refine ⟨?_, ?_, ?_, ?_⟩
            · refine tidy_append_right
                (tidy_append_right (tidy_cons_solid (by decide) hjt)
                  (tidy_cons_solid (by decide)
                    (tidy_cons_solid (by decide) hfu))
                  ⟨']', _, rfl, by decide⟩)
                (tidy_of_no_nl (by decide)) ⟨')', [], rfl, by decide⟩
            · exact startsSolid_append (startsSolid_append ⟨'[', _, rfl, by decide⟩)
            · exact ⟨_, ')', rfl, by decide⟩
            · exact suffix_cons (suffix_trans ⟨_, hd2⟩
                (suffix_cons (suffix_cons hrest3)))
          · simp at h
      · simp at h
  · simp at h

/-- The image matcher (with the installed URL sanitiser) emits a tidy
replacement, solid at both ends, and continues on a suffix of its
input. -/
theorem mImg_spec : ∀ (st : Bool) (l r rest : List Char) (st' : Bool),
    mImg sanitizeUrlL st l = some (r, rest, st') → Tidy l →
    Tidy r ∧ StartsSolid r ∧ EndsSolid r ∧ ∃ x, l = x ++ rest := by
  intro st l r rest st' h hl
  simp only [mImg] at h
  split at h
  · rename_i r0
    split at h
    · rename_i r2 heq2
      split at h
      · simp at h
      · rename_i hne2
        split at h
        · rename_i rest0 heq3
          have h' := Option.some.inj h
          rw [Prod.mk.injEq, Prod.mk.injEq] at h'
          obtain ⟨rfl, rfl, rfl⟩ := h'
          have hd2 := takeWhile_dropWhile_decomp heq2
          have hd3 := takeWhile_dropWhile_decomp heq3
          have hsegr0 : Seg r0 ('!' :: '[' :: r0) := ⟨['!', '['], [], by simp⟩
          have hsuf1 : ∃ x, r0 = x ++ r2 :=
            suffix_trans ⟨_, hd2⟩
              (⟨[']', '('], rfl⟩ : ∃ y, ']' :: '(' :: r2 = y ++ r2)
          have hsegr2 : Seg r2 ('!' :: '[' :: r0) :=
            seg_of_suffix (suffix_cons (suffix_cons hsuf1))
          have hjt : Tidy (jsTrimL (r0.takeWhile fun c => decide (c ≠ ']'))) :=
            tidy_of_seg (seg_trans (seg_jsTrimL _)
              (seg_trans (seg_takeWhile _ _) hsegr0)) hl
          have hfu : Tidy (sanitizeUrlL (r2.takeWhile fun c => decide (c ≠ ')'))) :=
            sanitizeUrl_tidy (tidy_of_seg
              (seg_trans (seg_takeWhile _ _) hsegr2) hl)
          have hrest3 : ∃ z, r2 = z ++ rest0 :=
            suffix_trans ⟨_, hd3⟩
              (⟨[')'], rfl⟩ : ∃ y, ')' :: rest0 = y ++ rest0)
          refine ⟨?_, ?_, ?_, ?_⟩
          · refine tidy_append_right
              (tidy_append_right (tidy_cons_solid (by decide)
                  (tidy_cons_solid (by decide) hjt))
                (tidy_cons_solid (by decide)
                  (tidy_cons_solid (by decide) hfu))
                ⟨']', _, rfl, by decide⟩)
              (tidy_of_no_nl (by decide)) ⟨')', [], rfl, by decide⟩
          · exact startsSolid_append (startsSolid_append ⟨'!', _, rfl, by decide⟩)
          · exact ⟨_, ')', rfl, by decide⟩
          · exact suffix_cons (suffix_cons (suffix_trans ⟨_, hd2⟩
              (suffix_cons (suffix_cons hrest3))))
        · simp at h
    · simp at h
  · simp at h

/-- Link normalisation preserves tidiness. -/
theorem normalizeLinks_tidy {l : List Char} (hl : Tidy l) :
    Tidy (normalizeLinksL sanitizeUrlL l) := by
  have h1 := scanRep_tidy (mLink sanitizeUrlL) nlFlag mLink_spec
    l.length true l hl
  have h2 := scanRep_tidy (mImg sanitizeUrlL) nlFlag mImg_spec
    (runScan (mLink sanitizeUrlL) nlFlag l).length true
    (runScan (mLink sanitizeUrlL) nlFlag l) h1.1
  exact h2.1

/-- A line that ends solid is not blank. -/
theorem blankLine_false_of_endsSolid {x : List Char} (h : EndsSolid x) :
    blankLine x = false := by
  obtain ⟨a, c, he, hc⟩ := h
  rw [blankLine, he]
  by_contra hb
  have hb' : ((a ++ [c]).all wsChar) = true := by simpa using hb
  have := List.all_eq_true.mp hb' c (by simp)
  rw [hc] at this
  exact Bool.false_ne_true this

/-- A newline-free list has no leading newline run. -/
theorem leadNl_zero_of_no_nl {l : List Char} (h : '\n' ∉ l) : leadNl l = 0 := by
  cases l with
  | nil => rfl
  | cons c cs =>
    have hc : c ≠ '\n' := fun he => h (he ▸ List.mem_cons_self _ _)
    rw [leadNl_cons, if_neg hc]

/-- Leading newline run of a newline cons. -/
theorem leadNl_nl (l : List Char) : leadNl ('\n' :: l) = leadNl l + 1 := by
  rw [leadNl_cons, if_pos rfl]

/-- Prepending one newline to a tidy list whose leading newline run has
length at most one keeps it tidy. -/
theorem tidy_nl_cons {l : List Char} (hl : Tidy l) (hle : leadNl l ≤ 1) :
    Tidy ('\n' :: l) := by
  intro p hbad hseg
  rcases seg_cons_cases hseg with ⟨p', t, hp, hlt⟩ | hseg'
  · rcases hbad with hb | ⟨w, hw, hb⟩
    · have hp' : p' = ['\n', '\n'] := by
        rw [hb] at hp
        exact ((List.cons.inj hp).2).symm
      have h2 : 2 ≤ leadNl l := by
        rw [hlt, hp', List.cons_append, List.cons_append, List.nil_append,
          leadNl_nl, leadNl_nl]
        omega
      omega
    · have hw' : w = '\n' := by
        rw [hb] at hp
        exact (List.cons.inj hp).1
      rw [hw'] at hw
      exact absurd hw (by decide)
  · exact hl p hbad hseg'

/-- `split('\n')` pieces contain no newline. -/
theorem splitNl_no_nl : ∀ (l x : List Char), x ∈ splitNl l → '\n' ∉ x := by
  intro l
  induction l with
  | nil =>
    intro x h
    simp [splitNl] at h
    subst h
    simp
  | cons c cs ih =>
    intro x h
    by_cases hc : c = '\n'
    · subst hc
      simp only [splitNl, if_pos rfl] at h
      rcases List.mem_cons.mp h with h | h
      · subst h; simp
      · exact ih x h
    · rcases hsp : splitNl cs with - | ⟨p, ps⟩
      · simp only [splitNl, if_neg hc, hsp] at h
        rcases List.mem_cons.mp h with h | h
        · subst h
          simp only [List.mem_cons, List.not_mem_nil, or_false]
          exact fun hx => hc hx.symm
        · simp at h
      · simp only [splitNl, if_neg hc, hsp] at h
        rcases List.mem_cons.mp h with h | h
        · subst h
          intro hmem
          rcases List.mem_cons.mp hmem with h1 | h1
          · exact hc h1.symm
          · exact ih p (hsp ▸ List.mem_cons_self _ _) h1
        · exact ih x (hsp ▸ List.mem_cons_of_mem _ h)

/-- Lines kept by the blank filter come from the input. -/
theorem filterBlanksGo_mem : ∀ (L : List (List Char)) (pb : Bool)
    (x : List Char), x ∈ filterBlanksGo pb L → x ∈ L := by
  intro L
  induction L with
  | nil => intro pb x h; simp [filterBlanksGo] at h
  | cons y ys ih =>
    intro pb x h
    simp only [filterBlanksGo] at h
    split at h
    · exact List.mem_cons_of_mem _ (ih _ x h)
    · rcases List.mem_cons.mp h with h | h
      · exact h ▸ List.mem_cons_self _ _
      · exact List.mem_cons_of_mem _ (ih _ x h)

/-- The blank filter leaves no two adjacent blank lines, and when the
carried previous-line flag is blank, the first kept line is not blank. -/
theorem filterBlanksGo_inv : ∀ (L : List (List Char)) (pb : Bool),
    NoAdjBlank (filterBlanksGo pb L) ∧
    (∀ h t, filterBlanksGo pb L = h :: t → blankLine h = true → pb = false) := by
  intro L
  induction L with
  | nil =>
    intro pb
    constructor
    · exact trivial
    · intro h t heq
      simp [filterBlanksGo] at heq
  | cons y ys ih =>
    intro pb
    by_cases hcond : (blankLine y = true ∧ pb = true)
    · have hout : filterBlanksGo pb (y :: ys) = filterBlanksGo (blankLine y) ys := by
        simp only [filterBlanksGo, if_pos hcond]
      constructor
      · rw [hout]
        exact (ih (blankLine y)).1
      · intro h t heq hb
        rw [hout] at heq
        have := (ih (blankLine y)).2 h t heq hb
        rw [hcond.1] at this
        exact absurd this (by decide)
    · have hout : filterBlanksGo pb (y :: ys) = y :: filterBlanksGo (blankLine y) ys := by
        simp only [filterBlanksGo, if_neg hcond]
      constructor
      · rw [hout]
        rcases hrest : filterBlanksGo (blankLine y) ys with - | ⟨h2, t2⟩
        · exact trivial
        · refine ⟨?_, ?_⟩
          · intro hcontra
            obtain ⟨hby, hbh⟩ := hcontra
            have := (ih (blankLine y)).2 h2 t2 hrest hbh
            rw [hby] at this
            exact absurd this (by decide)
          · have hN := (ih (blankLine y)).1
            rw [hrest] at hN
            exact hN
      · intro h t heq hb
        rw [hout] at heq
        obtain ⟨rfl, -⟩ := List.cons.inj heq
        by_contra hpb
        have hpb' : pb = true := by
          cases pb
          · exact absurd rfl hpb
          · rfl
        exact hcond ⟨hb, hpb'⟩

/-- Joining newline-free lines that end solid (or are empty) with no two
adjacent blanks gives a tidy result whose leading newline run has length
at most one (zero when the first line is non-empty). -/
theorem joinNl_props : ∀ xs : List (List Char),
    (∀ x ∈ xs, '\n' ∉ x) → (∀ x ∈ xs, x = [] ∨ EndsSolid x) →
    NoAdjBlank xs →
    Tidy (joinNl xs) ∧ leadNl (joinNl xs) ≤ 1 ∧
      (∀ y ys, xs = y :: ys → y ≠ [] → leadNl (joinNl xs) = 0) := by
  intro xs
  induction xs with
  | nil =>
    intro _ _ _
    refine ⟨tidy_nil, by simp [joinNl, leadNl], ?_⟩
    intro y ys h
    simp at h
  | cons x xs ih =>
    intro hnl hend hadj
    cases xs with
    | nil =>
      have hx : '\n' ∉ x := hnl x (List.mem_cons_self _ _)
      have hlead : leadNl (joinNl [x]) = 0 := leadNl_zero_of_no_nl hx
      refine ⟨tidy_of_no_nl hx, ?_, ?_⟩
      · rw [hlead]
        omega
      · intro y ys h hyne
        exact hlead
    | cons z zs =>
      have hx : '\n' ∉ x := hnl x (List.mem_cons_self _ _)
      have hadj' : NoAdjBlank (z :: zs) := hadj.2
      obtain ⟨hT, hle, hz⟩ := ih (fun a ha => hnl a (List.mem_cons_of_mem _ ha))
        (fun a ha => hend a (List.mem_cons_of_mem _ ha)) hadj'
      have hTnl : Tidy ('\n' :: joinNl (z :: zs)) := tidy_nl_cons hT hle
      rcases hend x (List.mem_cons_self _ _) with hxe | hxe
      · subst hxe
        have hbz : blankLine z = false := by
          have hne := hadj.1
          by_contra hb
          have hb' : blankLine z = true := by
            cases hbz2 : blankLine z
            · exact absurd hbz2 hb
            · rfl
          exact hne ⟨by decide, hb'⟩
        have hzne : z ≠ [] := by
          intro hz2
          rw [hz2] at hbz
          exact absurd hbz (by decide)
        have hlz : leadNl (joinNl (z :: zs)) = 0 := hz z zs rfl hzne
        refine ⟨hTnl, ?_, ?_⟩
        · have he1 : leadNl (joinNl ([] :: z :: zs))
              = leadNl (joinNl (z :: zs)) + 1 := leadNl_nl _
          rw [he1, hlz]
        · intro y ys h hyne
          obtain ⟨h1, -⟩ := List.cons.inj h
          exact absurd h1.symm hyne
      · have hxne : x ≠ [] := by
          obtain ⟨a, c, hac, -⟩ := hxe
          rw [hac]
          simp
        have hlead0 : leadNl (joinNl (x :: z :: zs)) = 0 := by
          rcases hx0 : x with - | ⟨c0, x'⟩
          · exact absurd hx0 hxne
          · have hc0 : c0 ≠ '\n' := by
              intro he
              refine hx ?_
              rw [hx0, he]
              exact List.mem_cons_self _ _
            show leadNl ((c0 :: x') ++ '\n' :: joinNl (z :: zs)) = 0
            rw [List.cons_append, leadNl_cons, if_neg hc0]
        refine ⟨?_, ?_, ?_⟩
        · exact tidy_append_left (tidy_of_no_nl hx) hTnl hxe
        · rw [hlead0]
          omega
        · intro y ys h hyne
          exact hlead0

/-- The split / trim-end / blank-filter / join stage always produces a
tidy string, whatever its input. -/
theorem lineStage_tidy (l : List Char) : Tidy (lineStage l) := by
  have hmap_nl : ∀ x ∈ (splitNl l).map trimEndL, '\n' ∉ x := by
    intro x hx
    obtain ⟨y, hy, rfl⟩ := List.mem_map.mp hx
    intro hmem
    exact splitNl_no_nl l y hy (seg_mem (seg_trimEndL y) _ hmem)
  have hmap_end : ∀ x ∈ (splitNl l).map trimEndL, x = [] ∨ EndsSolid x := by
    intro x hx
    obtain ⟨y, hy, rfl⟩ := List.mem_map.mp hx
    exact trimEndL_endsSolid y
  rw [lineStage]
  refine (joinNl_props _ ?_ ?_ ?_).1
  · intro x hx
    exact hmap_nl x (filterBlanksGo_mem _ _ x hx)
  · intro x hx
    exact hmap_end x (filterBlanksGo_mem _ _ x hx)
  · exact (filterBlanksGo_inv _ false).1

/-- Shape of the full normalizer on character lists: tidy output with
solid (or empty) edges. -/
theorem cleanMarkdownL_shape (l : List Char) :
    Tidy (cleanMarkdownL sanitizeUrlL l) ∧
    (cleanMarkdownL sanitizeUrlL l = [] ∨
      StartsSolid (cleanMarkdownL sanitizeUrlL l)) ∧
    (cleanMarkdownL sanitizeUrlL l = [] ∨
      EndsSolid (cleanMarkdownL sanitizeUrlL l)) := by
  have h1 : Tidy (normalizeLinksL sanitizeUrlL (lineStage (cleanPasses l))) :=
    normalizeLinks_tidy (lineStage_tidy _)
  simp only [cleanMarkdownL]
  exact ⟨tidy_of_seg (seg_jsTrimL _) h1, jsTrimL_startsSolid _, jsTrimL_endsSolid _⟩

/-- C10: for every input, including missing (`null`/`undefined` mapped
to `none`) and the empty string, `cleanMarkdown` returns a string — the
empty string for falsy input — whose text has no leading or trailing
whitespace (unless empty it starts and ends with a non-whitespace
character) and never contains two or more consecutive blank lines: it is
tidy, i.e. free of triple newlines and of whitespace directly before a
newline, so every surviving blank line is a single empty line. -/
theorem C10_normalizer_output_shape :
    cleanMarkdownJS none = "" ∧ cleanMarkdownJS (some "") = "" ∧
    ∀ s : String,
      Tidy (cleanMarkdownJS (some s)).data ∧
      ((cleanMarkdownJS (some s)).data = [] ∨
        StartsSolid (cleanMarkdownJS (some s)).data) ∧
      ((cleanMarkdownJS (some s)).data = [] ∨
        EndsSolid (cleanMarkdownJS (some s)).data) := by
  refine ⟨rfl, rfl, ?_⟩
  intro s
  by_cases hs : s = ""
  · subst hs
    have he : cleanMarkdownJS (some "") = "" := rfl
    rw [he]
    exact ⟨tidy_nil, Or.inl rfl, Or.inl rfl⟩
  · have hne : cleanMarkdownJS (some s) = cleanMarkdownStr s := by
      simp [cleanMarkdownJS, hs]
    rw [hne]
    have hdata : (cleanMarkdownStr s).data = cleanMarkdownL sanitizeUrlL s.data := by
      simp only [cleanMarkdownStr]
    rw [hdata]
    exact cleanMarkdownL_shape s.data

end Flashcrawl
